import Mathlib

/-!
Verification development for the training-log observation core of the
Text2SongStudio backend: the metric parser (regex-based extraction,
merge/downsample of time series), the log store (append-only byte ledger),
the subprocess capture loop, and the SSE log streamer.

Modelling conventions (shallow embedding of the Python source):
* `src/backend/app/services/metric_parser.py` is embedded with metric points
  as records `{step, value, timestamp}`.  Python `float` values are embedded
  in two ways, matching how the source consumes them:
  - for the merge/downsample algebra (which inspects values only through
    `str(value)` digit counting), a value is represented by its shortest
    decimal representation string (Python `repr` of a float is injective, so
    float equality is string equality of the representation);
  - for the line parser (which produces values via `float(text)` on decimal
    or scientific literals), a value is represented by the exact rational
    denoted by the literal.
* Python dicts are embedded as insertion-ordered association lists; a dict
  produced by Python code always has distinct keys, which appears as
  `Nodup` hypotheses where a theorem needs it.
* Async state (database rows, subprocess streams, wall-clock time) is
  embedded as explicit state passing over observation sequences.
-/

/-- A metric data point, from `MetricDataPoint` in metric_parser.py:
`{step: int, value: float, timestamp: str}`.  `V` is the embedding of the
value type (see the module docstring). -/
structure MPoint (V : Type) where
  step : Int
  value : V
  timestamp : String
deriving DecidableEq, Repr

/-- One named metric series: a list of points. -/
abbrev MSeries (V : Type) := List (MPoint V)

/-- A metrics mapping (`ParsedMetrics` / the `Run.metrics` JSON field):
an insertion-ordered association list from metric name to series. -/
abbrev MMetrics (V : Type) := List (String × MSeries V)

/-- Digit-count-after-the-decimal-point heuristic from
`MetricParser.merge_metrics` (metric_parser.py lines 293-299):
`len(str(v).split(".")[-1]) if "." in str(v) else 0`, applied to the
repr-string embedding of the value.  The fold computes the length of the
segment after the last dot, which is `len(split(".")[-1])`. -/
def pyDecimals (s : String) : Nat :=
  if s.data.any (fun c => c == '.') then
    s.data.foldl (fun acc c => if c == '.' then 0 else acc + 1) 0
  else 0

section MergeModel

variable {V : Type}

/-- `step_map[step] = point`: replace the entry with the same step in place,
or append at the end (Python dict assignment keeps insertion order). -/
def setKey : MSeries V → MPoint V → MSeries V
  | [], p => [p]
  | q :: rest, p => if q.step = p.step then p :: rest else q :: setKey rest p

/-- Building `step_map` from the existing series
(metric_parser.py lines 282-285): later duplicates overwrite earlier. -/
def buildStepMap (e : MSeries V) : MSeries V := e.foldl setKey []

/-- Steps of a series, as a list. -/
def stepsOf (l : MSeries V) : List Int := l.map (·.step)

/-- Step uniqueness within one series. -/
def NodupSteps (l : MSeries V) : Prop := (stepsOf l).Nodup

/-- Insertion of one new point into `step_map`
(metric_parser.py lines 287-303): if the step is present, replace only when
the new value has strictly more decimal digits; otherwise insert. -/
def insNew (dec : V → Nat) (m : MSeries V) (p : MPoint V) : MSeries V :=
  match m.find? (fun q => q.step == p.step) with
  | some q => if dec q.value < dec p.value then setKey m p else m
  | none => m ++ [p]

/-- The comparison relation used by `sorted(step_map.values(), key=step)`. -/
def stepRel : MPoint V → MPoint V → Prop := fun p q => p.step ≤ q.step

instance : DecidableRel (stepRel (V := V)) := fun p q => by
  unfold stepRel; infer_instance

instance : IsTotal (MPoint V) stepRel :=
  ⟨fun a b => Int.le_total a.step b.step⟩

instance : IsTrans (MPoint V) stepRel :=
  ⟨fun _ _ _ hab hbc => le_trans hab hbc⟩

instance : IsRefl (MPoint V) stepRel := ⟨fun a => le_refl a.step⟩

/-- `sorted(..., key=lambda x: x.get("step", 0))`: a stable sort by step. -/
def sortByStep (l : MSeries V) : MSeries V := List.insertionSort stepRel l

/-- Ascending-by-step property of a series. -/
def SortedSteps (l : MSeries V) : Prop := l.Sorted stepRel

instance (l : MSeries V) : Decidable (SortedSteps l) := by
  unfold SortedSteps; infer_instance

instance (l : MSeries V) : Decidable (NodupSteps l) := by
  unfold NodupSteps; infer_instance

/-- Merge of one series (the per-metric-name body of
`MetricParser.merge_metrics`): build the step map from `existing`, insert
the new points with the precision tie-break, and re-sort by step. -/
def mergeSeries (dec : V → Nat) (existing new : MSeries V) : MSeries V :=
  sortByStep (new.foldl (insNew dec) (buildStepMap existing))

/-- First-occurrence lookup in a metrics association list
(Python `existing[metric_name]` read). -/
def lookupEntry : MMetrics V → String → Option (MSeries V)
  | [], _ => none
  | (k, v) :: t, name => if k = name then some v else lookupEntry t name

/-- Python `existing[metric_name] = series`: replace the entry in place, or
append the key at the end. -/
def setEntry : MMetrics V → String → MSeries V → MMetrics V
  | [], name, s => [(name, s)]
  | (k, v) :: t, name, s =>
    if k = name then (name, s) :: t else (k, v) :: setEntry t name s

/-- Generic form of `MetricParser.merge_metrics` (metric_parser.py lines
260-310), parameterized by the decimal-precision proxy `dec`.  A `None`
`existing` argument is normalized to `{}` by the source before this loop. -/
def merge_metricsG (dec : V → Nat) (existing new : MMetrics V) : MMetrics V :=
  new.foldl
    (fun ex e => setEntry ex e.1 (mergeSeries dec ((lookupEntry ex e.1).getD []) e.2))
    existing

end MergeModel

namespace MetricParser

/-- `MetricParser.merge_metrics` on repr-string-valued points: the decimal
precision proxy is the source's `str(value)` digit count. -/
def merge_metrics (existing new : MMetrics String) : MMetrics String :=
  merge_metricsG (fun v => pyDecimals v) existing new

end MetricParser

instance {V : Type} [Inhabited V] : Inhabited (MPoint V) := ⟨⟨0, default, ""⟩⟩

/-- `MetricParser.downsample_metrics` on one series (metric_parser.py lines
333-342).  The index computation `int(i * (len(data_points) / max_points))`
is embedded with exact arithmetic: `i * L / M` in `Nat` is the floor of the
exact quotient, which is the value of the Python expression under exact
(rather than IEEE-754 double) division; the claims under verification do not
depend on the rounding of the double intermediate. -/
def downsampleSeries {V : Type} [Inhabited V] (data_points : MSeries V)
    (max_points : Nat) : MSeries V :=
  if data_points.length ≤ max_points then data_points
  else
    let L := data_points.length
    let indices :=
      ((List.range (max_points - 1)).map (fun i => i * L / max_points)) ++ [L - 1]
    indices.map (fun i => data_points.getD i default)

namespace MetricParser

/-- `MetricParser.downsample_metrics` (metric_parser.py lines 312-344).
In the typed embedding every value of the metrics mapping is a list, so the
source's `isinstance(data_points, list)` pass-through branch cannot fire. -/
def downsample_metrics {V : Type} [Inhabited V] (metrics : MMetrics V)
    (max_points : Nat) : MMetrics V :=
  metrics.map (fun e => (e.1, downsampleSeries e.2 max_points))

end MetricParser

/-- `RunStatus` from models/experiment.py (string values "pending" etc.). -/
inductive RunStatus where
  | pending | running | completed | failed | cancelled
deriving DecidableEq, Repr

/-- The fields of `ExperimentRun` (models/experiment.py) read or written by
the capture/streaming core.  Values of persisted metric points are the
exact rationals produced by the parser embedding.  `metrics` is nullable
(`run.metrics or {}` in the source). -/
structure ExperimentRun where
  status : RunStatus
  metrics : Option (MMetrics Rat)
  final_loss : Option Rat
  error : Option String
  started_at : Option String
  completed_at : Option String
deriving DecidableEq, Repr

/-- The metrics-merging loop of `LogCaptureService._update_run_metrics`
(log_capture.py lines 163-172): for each series in the incoming metrics,
ensure the key exists, snapshot the set of already-persisted steps, and
append exactly the points whose step is not in that snapshot. -/
def update_metrics_field {V : Type} (existing newm : MMetrics V) : MMetrics V :=
  newm.foldl
    (fun ex e =>
      let cur := (lookupEntry ex e.1).getD []
      let fresh := e.2.filter (fun p => decide (p.step ∉ stepsOf cur))
      setEntry ex e.1 (cur ++ fresh))
    existing

namespace LogCaptureService

/-- `LogCaptureService._update_run_metrics` (log_capture.py lines 146-175):
a missing run is a no-op; otherwise only the `metrics` field is replaced by
the merged mapping. -/
def update_run_metrics (run : Option ExperimentRun) (metrics : MMetrics Rat) :
    Option ExperimentRun :=
  match run with
  | none => none
  | some r =>
    some { r with
      metrics := some (update_metrics_field ((r.metrics).getD []) metrics) }

end LogCaptureService

/-- The `TrainingLog` row (models/training_log.py): an append-only byte
sequence (bytes embedded as naturals) plus `updated_at`. -/
structure TrainingLogRec where
  data : List Nat
  updated_at : String
deriving DecidableEq, Repr

namespace LogCaptureService

/-- `LogCaptureService.append_log` (log_capture.py lines 27-48) as a pure
state transformer on the (possibly absent) log row for one run: create with
the chunk if absent, else concatenate; returns the new row and
`len(log.data)`. -/
def append_log (log : Option TrainingLogRec) (chunk : List Nat) (now : String) :
    TrainingLogRec × Nat :=
  match log with
  | none => (⟨chunk, now⟩, chunk.length)
  | some l => (⟨l.data ++ chunk, now⟩, (l.data ++ chunk).length)

/-- `LogCaptureService.get_log_size` (log_capture.py lines 58-65). -/
def get_log_size (log : Option TrainingLogRec) : Nat :=
  match log with
  | some l => l.data.length
  | none => 0

end LogCaptureService

/-- Python slice `d[a:b]`. -/
def pySlice {α : Type} (d : List α) (a b : Nat) : List α := (d.take b).drop a

namespace LogStreamer

/-- What one iteration of the `event_generator` polling loop
(routers/logs.py lines 79-129) observes: the run row (its status), the log
row (its bytes), and the event-loop clock (embedded as naturals; the source
uses monotone float seconds compared only via `now - last >= 15`). -/
structure StreamObs where
  run : Option RunStatus
  log : Option (List Nat)
  now : Nat
deriving DecidableEq, Repr

/-- The three SSE event kinds emitted by the stream endpoint.  A `log`
event carries the raw delta bytes (the source base64-encodes them; base64
is an injective external encoding). -/
inductive SSEEvent where
  | log (chunk : List Nat)
  | heartbeat
  | done (exit_code : Nat) (final_size : Nat)
deriving DecidableEq, Repr

/-- Loop-carried state of `event_generator`: `last_size` and
`last_heartbeat`. -/
structure StreamState where
  lastSize : Nat
  lastHeartbeat : Nat
deriving DecidableEq, Repr

/-- The terminal-status test of logs.py lines 105-109. -/
def isTerminal : RunStatus → Bool
  | .completed => true
  | .failed => true
  | .cancelled => true
  | _ => false

/-- One iteration of the `while True` polling loop of `event_generator`
(routers/logs.py lines 79-129): returns the events yielded during the
iteration and `some` next state, or `none` when the loop breaks. -/
def pollIter (st : StreamState) (o : StreamObs) :
    List SSEEvent × Option StreamState :=
  match o.run with
  | none => ([], none)
  | some status =>
    let d := (o.log).getD []
    let current_size := match o.log with | some l => l.length | none => 0
    let delta :=
      if st.lastSize < current_size then
        [SSEEvent.log (pySlice d st.lastSize current_size)]
      else []
    let last1 := if st.lastSize < current_size then current_size else st.lastSize
    if isTerminal status then
      let extra :=
        match o.log with
        | some l => if last1 < l.length then [SSEEvent.log (l.drop last1)] else []
        | none => []
      let ec := if status = RunStatus.completed then 0 else 1
      (delta ++ extra ++ [SSEEvent.done ec current_size], none)
    else
      let hb := 15 ≤ o.now - st.lastHeartbeat
      let evs := delta ++ (if hb then [SSEEvent.heartbeat] else [])
      (evs, some ⟨last1, if hb then o.now else st.lastHeartbeat⟩)

/-- The whole event stream produced by `event_generator` over a sequence of
poll observations (the stream is still live when the observations run
out). -/
def stream_events (st : StreamState) : List StreamObs → List SSEEvent
  | [] => []
  | o :: rest =>
    match pollIter st o with
    | (evs, none) => evs
    | (evs, some st') => evs ++ stream_events st' rest

/-- Count of `done` events in an event list. -/
def doneCount (evs : List SSEEvent) : Nat :=
  evs.countP (fun e => match e with | SSEEvent.done _ _ => true | _ => false)

/-- `len(log.data) if log else 0` — the current log size seen by one poll. -/
def obsSize (o : StreamObs) : Nat :=
  match o.log with
  | some l => l.length
  | none => 0

end LogStreamer

/-! ### Regex embedding for METRIC_PATTERNS

Each compiled pattern of metric_parser.py lines 35-85 is embedded as a
matcher over `List Char` that is faithful to Python `re.search` semantics
for that pattern: leftmost match position, greedy character classes
(every `X+`/`X*` here is followed by a token disjoint from the class, so
greedy matching without backtracking is exact), lazy gap `.*?` (earliest
viable continuation, never across a newline), greedy gap `.*` (latest
viable continuation), and ordered alternation (the alternatives in these
patterns are pairwise disjoint at any given position, so committed choice
is exact).  All literals are matched case-insensitively (`re.IGNORECASE`).
-/

/-- ASCII `\d`. -/
def isDigitCh (c : Char) : Bool := c.isDigit

/-- `\s` for ASCII text: space, tab, newline, carriage return, vertical
tab, form feed. -/
def isSpaceCh (c : Char) : Bool :=
  c == ' ' || c == '\t' || c == '\n' || c == '\r' || c == '\x0b' || c == '\x0c'

/-- The class `[\s:]`. -/
def isSpaceColon (c : Char) : Bool := isSpaceCh c || c == ':'

/-- The class `[=:\s]`. -/
def isEqColonSpace (c : Char) : Bool := c == '=' || c == ':' || isSpaceCh c

/-- The class `[\s=:]`. -/
def isSpaceEqColon (c : Char) : Bool := isSpaceCh c || c == '=' || c == ':'

/-- The class `[_\s]`. -/
def isUnderSpace (c : Char) : Bool := c == '_' || isSpaceCh c

/-- Case-insensitive character comparison (`re.IGNORECASE`). -/
def lowEq (a b : Char) : Bool := a.toLower == b.toLower

/-- Match a literal word case-insensitively; returns the rest on success. -/
def matchLit : List Char → List Char → Option (List Char)
  | [], cs => some cs
  | _ :: _, [] => none
  | p :: ps, c :: cs => if lowEq p c then matchLit ps cs else none

/-- Match `X+` for a character class `p` (greedy; exact because every use
site is followed by a token outside the class). -/
def dropClass1 (p : Char → Bool) : List Char → Option (List Char)
  | [] => none
  | c :: rest => if p c then some (rest.dropWhile p) else none

/-- Match `(\d+)` (greedy), returning the captured digits and the rest. -/
def takeDigits1 (cs : List Char) : Option (List Char × List Char) :=
  let ds := cs.takeWhile isDigitCh
  if ds.isEmpty then none else some (ds, cs.dropWhile isDigitCh)

/-- Match `X?` for class `p` with backtracking into the continuation. -/
def optClass {α : Type} (p : Char → Bool) (k : List Char → Option α) :
    List Char → Option α
  | [] => k []
  | c :: rest =>
    if p c then (k rest).orElse (fun _ => k (c :: rest)) else k (c :: rest)

/-- Try the matcher at every position, leftmost first (`re.search`). -/
def searchPos {α : Type} (t : List Char → Option α) : List Char → Option α
  | [] => t []
  | c :: rest => (t (c :: rest)).orElse (fun _ => searchPos t rest)

/-- Lazy gap `.*?` followed by the continuation: earliest viable position;
`.` does not cross a newline. -/
def searchGapLazy {α : Type} (t : List Char → Option α) : List Char → Option α
  | [] => t []
  | c :: rest =>
    (t (c :: rest)).orElse (fun _ =>
      if c == '\n' then none else searchGapLazy t rest)

/-- Greedy gap `.*` followed by the continuation: latest viable position;
`.` does not cross a newline. -/
def searchGapGreedy {α : Type} (t : List Char → Option α) : List Char → Option α
  | [] => t []
  | c :: rest =>
    if c == '\n' then t (c :: rest)
    else (searchGapGreedy t rest).orElse (fun _ => t (c :: rest))

/-- The numeric capture `([0-9]+\.?[0-9]*(?:[eE][+-]?\d+)?)`, greedy with
backtracking out of an incomplete exponent; returns captured text and
rest. -/
def matchNum (cs : List Char) : Option (List Char × List Char) :=
  let ds := cs.takeWhile isDigitCh
  if ds.isEmpty then none
  else
    let r1 := cs.dropWhile isDigitCh
    let (dot, r2) : List Char × List Char :=
      match r1 with
      | [] => ([], [])
      | c :: t => if c == '.' then (['.'], t) else ([], c :: t)
    let fs := r2.takeWhile isDigitCh
    let r3 := r2.dropWhile isDigitCh
    match r3 with
    | e :: t =>
      if e == 'e' || e == 'E' then
        let (sgn, t2) : List Char × List Char :=
          match t with
          | s :: t2 => if s == '+' || s == '-' then ([s], t2) else ([], s :: t2)
          | [] => ([], [])
        let es := t2.takeWhile isDigitCh
        if es.isEmpty then some (ds ++ dot ++ fs, r3)
        else some (ds ++ dot ++ fs ++ e :: sgn ++ es, t2.dropWhile isDigitCh)
      else some (ds ++ dot ++ fs, r3)
    | [] => some (ds ++ dot ++ fs, [])

/-- The exact rational `m * 10^e` (the value denoted by a decimal or
scientific literal), built through `mkRat` so that it is
kernel-computable. -/
def ratOfSci (m : Int) (e : Int) : Rat :=
  if 0 ≤ e then mkRat (m * (10 : Int) ^ e.toNat) 1
  else mkRat m ((10 : Nat) ^ (-e).toNat)

/-- The signed numeric capture `(-?[0-9]+...)` of the rewards patterns. -/
def matchNumNeg (cs : List Char) : Option (List Char × List Char) :=
  match cs with
  | [] => matchNum []
  | c :: t =>
    if c == '-' then (matchNum t).map (fun pr => ('-' :: pr.1, pr.2))
    else matchNum (c :: t)

/-- `(?:loss|Loss)[=:\s]+(num)` — the shared tail of the loss patterns;
returns the captured numeric text. -/
def lossTail (cs : List Char) : Option (List Char) :=
  (matchLit "loss".data cs).bind fun r1 =>
  (dropClass1 isEqColonSpace r1).bind fun r2 =>
  (matchNum r2).map (·.1)

/-- `step_loss`: `[Ss]tep[\s:]+(\d+).*?(?:loss|Loss)[=:\s]+(num)` at one
position; returns (step digits, numeric text). -/
def tryStepLoss (cs : List Char) : Option (List Char × List Char) :=
  (matchLit "step".data cs).bind fun r1 =>
  (dropClass1 isSpaceColon r1).bind fun r2 =>
  (takeDigits1 r2).bind fun dsr =>
  (searchGapLazy lossTail dsr.2).map (fun num => (dsr.1, num))

/-- `epoch_avg_loss`:
`[Ee]poch[\s:]+(\d+)\s+average\s+loss[=:\s]+(num)` at one position. -/
def tryEpochAvg (cs : List Char) : Option (List Char × List Char) :=
  (matchLit "epoch".data cs).bind fun r1 =>
  (dropClass1 isSpaceColon r1).bind fun r2 =>
  (takeDigits1 r2).bind fun dsr =>
  (dropClass1 isSpaceCh dsr.2).bind fun r3 =>
  (matchLit "average".data r3).bind fun r4 =>
  (dropClass1 isSpaceCh r4).bind fun r5 =>
  (matchLit "loss".data r5).bind fun r6 =>
  (dropClass1 isEqColonSpace r6).bind fun r7 =>
  (matchNum r7).map (fun pr => (dsr.1, pr.1))

/-- `epoch_progress_loss`:
`[Ee]poch[\s:]+(\d+).*\|.*loss[=:\s]+(num)` at one position (both gaps
greedy). -/
def tryEpochProgress (cs : List Char) : Option (List Char × List Char) :=
  (matchLit "epoch".data cs).bind fun r1 =>
  (dropClass1 isSpaceColon r1).bind fun r2 =>
  (takeDigits1 r2).bind fun dsr =>
  (searchGapGreedy
    (fun s =>
      match s with
      | c :: t => if c == '|' then searchGapGreedy lossTail t else none
      | [] => none)
    dsr.2).map (fun num => (dsr.1, num))

/-- `learning_rate`: `(?:lr|learning[_\s]?rate)[=:\s]+(num)` at one
position. -/
def tryLearningRate (cs : List Char) : Option (List Char) :=
  ((matchLit "lr".data cs).orElse (fun _ =>
    (matchLit "learning".data cs).bind fun r =>
      optClass isUnderSpace (matchLit "rate".data) r)).bind fun r1 =>
  (dropClass1 isEqColonSpace r1).bind fun r2 =>
  (matchNum r2).map (·.1)

/-- `grad_norm`: `(?:grad[_\s]?norm|gradient[_\s]?norm)[=:\s]+(num)` at one
position. -/
def tryGradNorm (cs : List Char) : Option (List Char) :=
  (((matchLit "grad".data cs).bind fun r =>
      optClass isUnderSpace (matchLit "norm".data) r).orElse (fun _ =>
    (matchLit "gradient".data cs).bind fun r =>
      optClass isUnderSpace (matchLit "norm".data) r)).bind fun r1 =>
  (dropClass1 isEqColonSpace r1).bind fun r2 =>
  (matchNum r2).map (·.1)

/-- `step_only`: `(?:[Ss]tep|[Ii]teration)[\s:]+(\d+)` at one position. -/
def tryStepOnly (cs : List Char) : Option (List Char) :=
  ((matchLit "step".data cs).orElse (fun _ =>
    matchLit "iteration".data cs)).bind fun r1 =>
  (dropClass1 isSpaceColon r1).bind fun r2 =>
  (takeDigits1 r2).map (·.1)

/-- `global_step`: `global[_\s]?step[\s=:]+(\d+)` at one position. -/
def tryGlobalStep (cs : List Char) : Option (List Char) :=
  ((matchLit "global".data cs).bind fun r =>
    optClass isUnderSpace (matchLit "step".data) r).bind fun r1 =>
  (dropClass1 isSpaceEqColon r1).bind fun r2 =>
  (takeDigits1 r2).map (·.1)

/-- `rewards_chosen`: `rewards[/_]chosen[=:\s]+(-?num)` at one position. -/
def tryRewardsChosen (cs : List Char) : Option (List Char) :=
  (matchLit "rewards".data cs).bind fun r =>
  (match r with
   | c :: t => if c == '/' || c == '_' then some t else none
   | [] => none).bind fun r2 =>
  (matchLit "chosen".data r2).bind fun r3 =>
  (dropClass1 isEqColonSpace r3).bind fun r4 =>
  (matchNumNeg r4).map Prod.fst

/-- `rewards_rejected`: `rewards[/_]rejected[=:\s]+(-?num)` at one
position. -/
def tryRewardsRejected (cs : List Char) : Option (List Char) :=
  (matchLit "rewards".data cs).bind fun r =>
  (match r with
   | c :: t => if c == '/' || c == '_' then some t else none
   | [] => none).bind fun r2 =>
  (matchLit "rejected".data r2).bind fun r3 =>
  (dropClass1 isEqColonSpace r3).bind fun r4 =>
  (matchNumNeg r4).map Prod.fst

/-- `hf_trainer_dict`: `['\"]loss['\"]:\s*(num)` at one position. -/
def tryHfLoss (cs : List Char) : Option (List Char) :=
  (match cs with
   | c :: t => if c == '\'' || c == '"' then some t else none
   | [] => none).bind fun r =>
  (matchLit "loss".data r).bind fun r2 =>
  (match r2 with
   | c :: t => if c == '\'' || c == '"' then some t else none
   | [] => none).bind fun r3 =>
  (match r3 with
   | c :: t => if c == ':' then some t else none
   | [] => none).bind fun r4 =>
  (matchNum (r4.dropWhile isSpaceCh)).map Prod.fst

/-! ### Numeric conversion (`int(...)` / `float(...)`) -/

/-- Value of one ASCII digit. -/
def digitVal (c : Char) : Nat := c.toNat - '0'.toNat

/-- `int(...)` on a digit string (always succeeds on `\d+` captures). -/
def digitsToNat (ds : List Char) : Nat :=
  ds.foldl (fun a c => a * 10 + digitVal c) 0

/-- `float(text)` on decimal/scientific literals, modelled exactly over the
rationals: `some` exactly on `[+-]? digits+ (. digits*)? ([eE][+-]?digits+)?`
— a sublanguage of what CPython `float` accepts that covers every text the
regex captures can produce — and `none` (the `ValueError` case)
otherwise.  `pyFloatExp` is the exponent-suffix continuation of the
parse, factored out. -/
def pyFloatExp (mant : Int) (fsLen : Nat) (r2 : List Char) : Option Rat :=
  match r2 with
  | [] => some (ratOfSci mant (-(fsLen : Int)))
  | e :: t =>
    if e == 'e' || e == 'E' then
      let (esgn, t2) : Int × List Char :=
        match t with
        | [] => (1, [])
        | c :: t2 =>
          if c == '+' then (1, t2) else if c == '-' then (-1, t2)
          else (1, c :: t2)
      let es := t2.takeWhile isDigitCh
      if es.isEmpty then none
      else if (t2.dropWhile isDigitCh).isEmpty then
        some (ratOfSci mant (esgn * (digitsToNat es : Int) - (fsLen : Int)))
      else none
    else none

def pyFloat? (cs : List Char) : Option Rat :=
  let (sgn, cs1) : Int × List Char :=
    match cs with
    | [] => (1, [])
    | c :: t =>
      if c == '-' then (-1, t) else if c == '+' then (1, t) else (1, c :: t)
  let ds := cs1.takeWhile isDigitCh
  if ds.isEmpty then none
  else
    let r1 := cs1.dropWhile isDigitCh
    let (fs, r2) : List Char × List Char :=
      match r1 with
      | [] => ([], [])
      | c :: t =>
        if c == '.' then (t.takeWhile isDigitCh, t.dropWhile isDigitCh)
        else ([], c :: t)
    pyFloatExp (sgn * (digitsToNat (ds ++ fs) : Int)) fs.length r2

instance {ε α : Type} [DecidableEq ε] [DecidableEq α] :
    DecidableEq (Except ε α) := fun x y =>
  match x, y with
  | Except.ok a, Except.ok b =>
    if h : a = b then isTrue (congrArg Except.ok h)
    else isFalse (fun he => h (Except.ok.inj he))
  | Except.error a, Except.error b =>
    if h : a = b then isTrue (congrArg Except.error h)
    else isFalse (fun he => h (Except.error.inj he))
  | Except.ok _, Except.error _ => isFalse (fun he => Except.noConfusion he)
  | Except.error _, Except.ok _ => isFalse (fun he => Except.noConfusion he)

/-- `float(text)` as a fallible computation (raising = `.error`). -/
def pyFloatE (cs : List Char) : Except Unit Rat :=
  match pyFloat? cs with
  | some v => Except.ok v
  | none => Except.error ()

/-- Python `chunk.split("\n")` on the decoded character list. -/
def splitNl : List Char → List (List Char)
  | [] => [[]]
  | c :: rest =>
    match splitNl rest with
    | [] => [[c]]
    | h :: t => if c == '\n' then [] :: h :: t else (c :: h) :: t

/-- Python `line.strip()` (ASCII whitespace). -/
def pyStrip (l : List Char) : List Char :=
  ((l.dropWhile isSpaceCh).reverse.dropWhile isSpaceCh).reverse

/-- Multiplicity of the prime `p` in a natural number, with explicit fuel
(so that the definition is structurally recursive and kernel-computable);
`fuel = n` always suffices since each step divides by at least 2. -/
def factorCountF : Nat → Nat → Nat → Nat
  | 0, _, _ => 0
  | fuel + 1, p, n =>
    if 1 < p ∧ 1 < n ∧ n % p = 0 then 1 + factorCountF fuel p (n / p) else 0

/-- Multiplicity of `p` in `n`. -/
def factorCount (p : Nat) (n : Nat) : Nat := factorCountF n p n

/-- Digits after the decimal point of `str(float(q))` under the
exact-rational embedding of floats: the minimal `k` with `q * 10^k`
integral, except that integral floats print as `"x.0"` (one digit).
For rationals denoting parsed decimal/scientific literals (denominator a
product of twos and fives) this is exactly the source's
`len(str(v).split(".")[-1])` count. -/
def decQ (q : Rat) : Nat :=
  if q.den = 1 then 1 else max (factorCount 2 q.den) (factorCount 5 q.den)

namespace MetricParser

/-- `MetricParser.merge_metrics` as applied inside `parse_log_chunk` and the
capture loop, on exact-rational-valued points. -/
def merge_metricsQ (existing new : MMetrics Rat) : MMetrics Rat :=
  merge_metricsG decQ existing new

/-- `MetricParser._extract_step` (metric_parser.py lines 208-220):
`global_step` pattern first, then `step`/`iteration`. -/
def extract_step (cs : List Char) : Option Nat :=
  match searchPos tryGlobalStep cs with
  | some ds => some (digitsToNat ds)
  | none => (searchPos tryStepOnly cs).map digitsToNat

/-- Convert an optional numeric capture via `float` (only evaluated when the
pattern matched, as in the source). -/
def floatCap (cap : Option (List Char)) : Except Unit (Option Rat) :=
  match cap with
  | none => Except.ok none
  | some s => (pyFloatE s).map some

/-- Convert an optional (digits, numeric) capture pair via `int`/`float`. -/
def floatCapPair (cap : Option (List Char × List Char)) :
    Except Unit (Option (Nat × Rat)) :=
  match cap with
  | none => Except.ok none
  | some pr => (pyFloatE pr.2).map (fun v => some (digitsToNat pr.1, v))

/-- A `metrics[name] = [point]` insertion of `parse_log_line`, or nothing. -/
def optEntry (name : String) : Option (MPoint Rat) → MMetrics Rat
  | some p => [(name, [p])]
  | none => []

/-- `self._current_step if self._current_step > 0 else 1`. -/
def stepOrOne (st : Nat) : Nat := if 0 < st then st else 1

/-- `MetricParser.parse_log_line` (metric_parser.py lines 102-206) as a
state-passing fallible function: takes `self._current_step`, returns the
updated step and the `ParsedMetrics` of the line.  Branch order and the
`"loss" not in metrics` guards follow the source; `float` conversions are
only performed in branches that execute. -/
def parse_log_line (current_step : Nat) (line timestamp : String) :
    Except Unit (Nat × MMetrics Rat) := do
  let cs := line.data
  let st0 := (extract_step cs).getD current_step
  -- step_loss: sets current_step to the embedded step
  let sl ← floatCapPair (searchPos tryStepLoss cs)
  let st1 := match sl with | some nv => nv.1 | none => st0
  let loss1 : Option (MPoint Rat) :=
    sl.map (fun nv => ⟨(nv.1 : Int), nv.2, timestamp⟩)
  -- epoch_avg_loss: only when no loss was found yet
  let ea ← match loss1 with
    | some _ => pure (none : Option (Nat × Rat))
    | none => floatCapPair (searchPos tryEpochAvg cs)
  let st2 := match ea with | some nv => nv.1 | none => st1
  let loss2 := match ea with
    | some nv => some (⟨(nv.1 : Int), nv.2, timestamp⟩ : MPoint Rat)
    | none => loss1
  let epoch2 : Option (MPoint Rat) :=
    ea.map (fun nv => ⟨(nv.1 : Int), mkRat (nv.1 : Int) 1, timestamp⟩)
  -- epoch_progress_loss: only when still no loss
  let ep ← match loss2 with
    | some _ => pure (none : Option (Nat × Rat))
    | none => floatCapPair (searchPos tryEpochProgress cs)
  let st3 := match ep with | some nv => nv.1 | none => st2
  let loss3 := match ep with
    | some nv => some (⟨(nv.1 : Int), nv.2, timestamp⟩ : MPoint Rat)
    | none => loss2
  let epoch3 := match ep with
    | some nv => some (⟨(nv.1 : Int), mkRat (nv.1 : Int) 1, timestamp⟩ : MPoint Rat)
    | none => epoch2
  -- hf_trainer_dict: only when still no loss; uses current step (or 1)
  let hf ← match loss3 with
    | some _ => pure (none : Option Rat)
    | none => floatCap (searchPos tryHfLoss cs)
  let loss4 := match hf with
    | some v => some (⟨(stepOrOne st3 : Int), v, timestamp⟩ : MPoint Rat)
    | none => loss3
  -- learning_rate
  let lr ← floatCap (searchPos tryLearningRate cs)
  let lrPt := lr.map (fun v => (⟨(stepOrOne st3 : Int), v, timestamp⟩ : MPoint Rat))
  -- grad_norm
  let gn ← floatCap (searchPos tryGradNorm cs)
  let gnPt := gn.map (fun v => (⟨(stepOrOne st3 : Int), v, timestamp⟩ : MPoint Rat))
  -- rewards_chosen / rewards_rejected
  let rc ← floatCap (searchPos tryRewardsChosen cs)
  let rcPt := rc.map (fun v => (⟨(stepOrOne st3 : Int), v, timestamp⟩ : MPoint Rat))
  let rj ← floatCap (searchPos tryRewardsRejected cs)
  let rjPt := rj.map (fun v => (⟨(stepOrOne st3 : Int), v, timestamp⟩ : MPoint Rat))
  pure (st3,
    optEntry "loss" loss4 ++ optEntry "epoch" epoch3 ++
    optEntry "learning_rate" lrPt ++ optEntry "grad_norm" gnPt ++
    optEntry "rewards_chosen" rcPt ++ optEntry "rewards_rejected" rjPt)

/-- `MetricParser.parse_log_chunk` (metric_parser.py lines 222-258) on the
decoded text of a chunk (`bytes.decode("utf-8", errors="replace")` never
raises, so the byte-level step is total and the model receives its
output): split on newlines, strip, skip blanks, parse each line, and fold
the per-line metrics through `merge_metrics`. -/
def parse_log_chunk (current_step : Nat) (chunk timestamp : String) :
    Except Unit (Nat × MMetrics Rat) :=
  (splitNl chunk.data).foldlM
    (fun (acc : Nat × MMetrics Rat) (rawLine : List Char) =>
      let line := pyStrip rawLine
      if line.isEmpty then pure acc
      else do
        let r ← parse_log_line acc.1 (String.mk line) timestamp
        pure (r.1, merge_metricsQ acc.2 r.2))
    (current_step, ([] : MMetrics Rat))

end MetricParser

namespace LogCaptureService

/-- `METRIC_UPDATE_INTERVAL` (log_capture.py line 16). -/
def METRIC_UPDATE_INTERVAL : Nat := 5

/-- The in-memory state carried by `capture_subprocess_output`: the per-run
parser's `_current_step`, `accumulated_metrics`, and `chunk_count`. -/
structure CapState where
  current_step : Nat
  acc : MMetrics Rat
  chunk_count : Nat
deriving DecidableEq, Repr

/-- Observable actions of the capture loop, in program order: appending a
raw chunk to the log store, persisting metrics to the run row
(`_update_run_metrics`), and awaiting the process. -/
inductive CapEvent where
  | appendLog (chunk : String)
  | flushMetrics (m : MMetrics Rat)
  | procWait
deriving DecidableEq, Repr

/-- The per-chunk body of `read_stream` inside `capture_subprocess_output`
(log_capture.py lines 95-121): append the raw chunk, parse it, merge into
the accumulator, and flush every `METRIC_UPDATE_INTERVAL` parsed chunks.
A parse exception is swallowed (`except Exception: pass`); that branch is
proved unreachable below. -/
def processChunk (st : CapState) (chunk timestamp : String) :
    List CapEvent × CapState :=
  let ev0 := [CapEvent.appendLog chunk]
  match MetricParser.parse_log_chunk st.current_step chunk timestamp with
  | Except.error _ => (ev0, st)
  | Except.ok r =>
    if r.2.isEmpty then (ev0, { st with current_step := r.1 })
    else
      let acc' := MetricParser.merge_metricsQ st.acc r.2
      let cc := st.chunk_count + 1
      if METRIC_UPDATE_INTERVAL ≤ cc then
        (ev0 ++ [CapEvent.flushMetrics acc'], ⟨r.1, acc', 0⟩)
      else (ev0, ⟨r.1, acc', cc⟩)

/-- The drain loop of `capture_subprocess_output` over the sequence of
non-empty blocks read from the subprocess streams (the two per-stream loops
are embedded as one arrival-ordered sequence), starting from a fresh
`MetricParser()` and empty accumulator. -/
def captureLoop (chunks : List String) (timestamp : String) :
    List CapEvent × CapState :=
  chunks.foldl
    (fun (p : List CapEvent × CapState) c =>
      let r := processChunk p.2 c timestamp
      (p.1 ++ r.1, r.2))
    ([], ⟨0, [], 0⟩)

/-- `LogCaptureService.capture_subprocess_output` (log_capture.py lines
67-144): drain the streams, then — if the accumulated metrics are
non-empty — downsample to 2000 points per series and persist once more,
then await the process and return its exit code. -/
def capture_subprocess_output (chunks : List String) (timestamp : String)
    (returncode : Int) : List CapEvent × Int :=
  let fin := captureLoop chunks timestamp
  let finalFlush :=
    if fin.2.acc.isEmpty then []
    else [CapEvent.flushMetrics (MetricParser.downsample_metrics fin.2.acc 2000)]
  (fin.1 ++ finalFlush ++ [CapEvent.procWait], returncode)

end LogCaptureService

/-- The key list of a metrics mapping. -/
def metricKeys {V : Type} (m : MMetrics V) : List String := m.map Prod.fst

/-- The language of the numeric regex capture groups:
`digits+ (. digits*)? ([eE] sign? digits+)?`.  Every text captured by a
`matchNum` group has this shape, and every text of this shape is accepted
by the `float` model. -/
def NumShape (s : List Char) : Prop :=
  ∃ ds dot fs expp, s = ds ++ dot ++ fs ++ expp ∧ ds ≠ [] ∧
    (∀ c ∈ ds, isDigitCh c = true) ∧ (dot = [] ∨ dot = ['.']) ∧
    (∀ c ∈ fs, isDigitCh c = true) ∧ (dot = [] → fs = []) ∧
    (expp = [] ∨ ∃ e sl es, (e = 'e' ∨ e = 'E') ∧
      (sl = [] ∨ sl = ['+'] ∨ sl = ['-']) ∧ es ≠ [] ∧
      (∀ c ∈ es, isDigitCh c = true) ∧ expp = e :: (sl ++ es))

/-- The merge invariant: the mapping `M` holds, for the entry `b` of a
parsed-metrics dict, a series with unique steps, sorted ascending, whose
point at each step of `b` has at least the decimal precision of `b`'s
point there. -/
def Dominated {V : Type} (dec : V → Nat) (M : MMetrics V)
    (b : String × MSeries V) : Prop :=
  ∃ s, lookupEntry M b.1 = some s ∧ NodupSteps s ∧ SortedSteps s ∧
    ∀ p ∈ b.2, ∃ q ∈ s, q.step = p.step ∧ dec p.value ≤ dec q.value

section MergeLemmas

variable {V : Type} {dec : V → Nat}

theorem setKey_of_not_mem {m : MSeries V} {p : MPoint V}
    (h : p.step ∉ stepsOf m) : setKey m p = m ++ [p] := by
  induction m with
  | nil => rfl
  | cons q rest ih =>
    simp only [stepsOf, List.map_cons, List.mem_cons] at h
    push_neg at h
    simp only [setKey, if_neg (Ne.symm h.1), List.cons_append, List.cons.injEq,
      true_and]
    exact ih h.2

theorem stepsOf_setKey_subset {m : MSeries V} {p : MPoint V} {s : Int}
    (h : s ∈ stepsOf (setKey m p)) : s = p.step ∨ s ∈ stepsOf m := by
  induction m with
  | nil =>
    simp only [setKey, stepsOf, List.map_cons, List.map_nil, List.mem_singleton] at h
    exact Or.inl h
  | cons q rest ih =>
    simp only [setKey] at h
    by_cases hq : q.step = p.step
    · rw [if_pos hq] at h
      simp only [stepsOf, List.map_cons, List.mem_cons] at h ⊢
      rcases h with h | h
      · exact Or.inl h
      · exact Or.inr (Or.inr h)
    · rw [if_neg hq] at h
      simp only [stepsOf, List.map_cons, List.mem_cons] at h ⊢
      rcases h with h | h
      · exact Or.inr (Or.inl h)
      · rcases ih h with h' | h'
        · exact Or.inl h'
        · exact Or.inr (Or.inr h')

theorem nodup_setKey {m : MSeries V} {p : MPoint V}
    (h : NodupSteps m) : NodupSteps (setKey m p) := by
  induction m with
  | nil => simp [setKey, NodupSteps, stepsOf]
  | cons q rest ih =>
    simp only [NodupSteps, stepsOf, List.map_cons, List.nodup_cons] at h
    by_cases hq : q.step = p.step
    · simp only [setKey, if_pos hq, NodupSteps, stepsOf, List.map_cons,
        List.nodup_cons]
      exact ⟨hq ▸ h.1, h.2⟩
    · simp only [setKey, if_neg hq, NodupSteps, stepsOf, List.map_cons,
        List.nodup_cons]
      refine ⟨fun hmem => ?_, ih h.2⟩
      rcases stepsOf_setKey_subset (s := q.step) hmem with h' | h'
      · exact hq h'
      · exact h.1 h'

theorem mem_setKey_self {m : MSeries V} (p : MPoint V) : p ∈ setKey m p := by
  induction m with
  | nil => simp [setKey]
  | cons q rest ih =>
    by_cases hq : q.step = p.step
    · simp [setKey, if_pos hq]
    · simp only [setKey, if_neg hq, List.mem_cons]
      exact Or.inr ih

theorem mem_setKey_of_ne {m : MSeries V} {p q : MPoint V}
    (h : q.step ≠ p.step) : q ∈ setKey m p ↔ q ∈ m := by
  induction m with
  | nil =>
    simp only [setKey, List.mem_singleton, List.not_mem_nil, iff_false]
    intro he; exact h (by rw [he])
  | cons r rest ih =>
    by_cases hr : r.step = p.step
    · simp only [setKey, if_pos hr, List.mem_cons]
      constructor
      · rintro (he | hm)
        · exact absurd (by rw [he]) h
        · exact Or.inr hm
      · rintro (he | hm)
        · exact absurd (by rw [he, hr]) h
        · exact Or.inr hm
    · simp only [setKey, if_neg hr, List.mem_cons, ih]

theorem foldl_setKey_of_nodup {m : MSeries V} :
    ∀ acc : MSeries V, NodupSteps (acc ++ m) → m.foldl setKey acc = acc ++ m := by
  induction m with
  | nil => intro acc _; simp
  | cons p rest ih =>
    intro acc h
    have hp : p.step ∉ stepsOf acc := by
      simp only [NodupSteps, stepsOf, List.map_append, List.map_cons,
        List.nodup_append, List.nodup_cons] at h
      intro hmem
      exact h.2.2 hmem (by simp)
    have h2 : NodupSteps ((acc ++ [p]) ++ rest) := by
      simpa [NodupSteps, stepsOf, List.append_assoc] using h
    simp only [List.foldl_cons, setKey_of_not_mem hp]
    rw [ih (acc ++ [p]) h2, List.append_assoc]
    simp

theorem buildStepMap_eq_self {m : MSeries V} (h : NodupSteps m) :
    buildStepMap m = m := by
  simpa [buildStepMap] using foldl_setKey_of_nodup (m := m) [] (by simpa using h)

theorem nodup_buildStepMap (m : MSeries V) : NodupSteps (buildStepMap m) := by
  suffices h : ∀ acc : MSeries V, NodupSteps acc → NodupSteps (m.foldl setKey acc) by
    exact h [] (by simp [NodupSteps, stepsOf])
  induction m with
  | nil => intro acc h; exact h
  | cons p rest ih =>
    intro acc h
    exact ih (setKey acc p) (nodup_setKey h)

theorem find?_step_mem {m : MSeries V} {s : Int} {q : MPoint V}
    (h : m.find? (fun r => r.step == s) = some q) : q ∈ m ∧ q.step = s :=
  ⟨List.mem_of_find?_eq_some h, by
    have := List.find?_some h
    exact eq_of_beq this⟩

theorem find?_step_unique {m : MSeries V} {q : MPoint V}
    (hn : NodupSteps m) (hq : q ∈ m) :
    m.find? (fun r => r.step == q.step) = some q := by
  induction m with
  | nil => cases hq
  | cons r rest ih =>
    simp only [NodupSteps, stepsOf, List.map_cons, List.nodup_cons] at hn
    rcases List.mem_cons.mp hq with he | hm
    · subst he
      rw [List.find?_cons_of_pos _ (by simp)]
    · have hne : r.step ≠ q.step := by
        intro he
        exact hn.1 (he ▸ List.mem_map_of_mem (·.step) hm)
      rw [List.find?_cons_of_neg _ (by simp [hne])]
      exact ih hn.2 hm

end MergeLemmas

section InsNewLemmas

variable {V : Type} {dec : V → Nat}

theorem insNew_eq_found {m : MSeries V} {p q : MPoint V}
    (hf : m.find? (fun r => r.step == p.step) = some q) :
    insNew dec m p = if dec q.value < dec p.value then setKey m p else m := by
  unfold insNew
  rw [hf]

theorem insNew_eq_missing {m : MSeries V} {p : MPoint V}
    (hf : m.find? (fun r => r.step == p.step) = none) :
    insNew dec m p = m ++ [p] := by
  unfold insNew
  rw [hf]

theorem nodup_insNew {m : MSeries V} {p : MPoint V}
    (h : NodupSteps m) : NodupSteps (insNew dec m p) := by
  cases hf : m.find? (fun q => q.step == p.step) with
  | some q =>
    rw [insNew_eq_found hf]
    by_cases hlt : dec q.value < dec p.value
    · rw [if_pos hlt]; exact nodup_setKey h
    · rw [if_neg hlt]; exact h
  | none =>
    rw [insNew_eq_missing hf]
    have hnot : p.step ∉ stepsOf m := by
      intro hmem
      rcases List.mem_map.mp hmem with ⟨q, hq, he⟩
      have := List.find?_eq_none.mp hf q hq
      simp [he] at this
    unfold NodupSteps stepsOf at h ⊢
    rw [List.map_append]
    refine List.Nodup.append h (List.nodup_singleton _) ?_
    intro a ha hb
    simp only [List.map_cons, List.map_nil, List.mem_singleton] at hb
    exact hnot (hb ▸ ha)

theorem insNew_dominates_mem {m : MSeries V} {p q : MPoint V}
    (hn : NodupSteps m) (hq : q ∈ m) :
    ∃ r ∈ insNew dec m p, r.step = q.step ∧ dec q.value ≤ dec r.value := by
  cases hf : m.find? (fun r => r.step == p.step) with
  | some q0 =>
    obtain ⟨hq0m, hq0s⟩ := find?_step_mem hf
    rw [insNew_eq_found hf]
    by_cases hlt : dec q0.value < dec p.value
    · rw [if_pos hlt]
      by_cases hqs : q.step = p.step
      · have hqq0 : q = q0 := by
          have h1 := find?_step_unique hn hq
          rw [hqs, hf] at h1
          exact (Option.some_inj.mp h1).symm
        subst hqq0
        refine ⟨p, mem_setKey_self p, by rw [hqs], le_of_lt hlt⟩
      · refine ⟨q, (mem_setKey_of_ne hqs).mpr hq, rfl, le_refl _⟩
    · rw [if_neg hlt]
      exact ⟨q, hq, rfl, le_refl _⟩
  | none =>
    rw [insNew_eq_missing hf]
    exact ⟨q, List.mem_append_left _ hq, rfl, le_refl _⟩

theorem insNew_dominates_new (m : MSeries V) (p : MPoint V) :
    ∃ r ∈ insNew dec m p, r.step = p.step ∧ dec p.value ≤ dec r.value := by
  cases hf : m.find? (fun r => r.step == p.step) with
  | some q0 =>
    obtain ⟨hq0m, hq0s⟩ := find?_step_mem hf
    rw [insNew_eq_found hf]
    by_cases hlt : dec q0.value < dec p.value
    · rw [if_pos hlt]
      exact ⟨p, mem_setKey_self p, rfl, le_refl _⟩
    · rw [if_neg hlt]
      exact ⟨q0, hq0m, hq0s, le_of_not_lt hlt⟩
  | none =>
    rw [insNew_eq_missing hf]
    exact ⟨p, List.mem_append_right _ (by simp), rfl, le_refl _⟩

theorem insNew_noop {m : MSeries V} {p : MPoint V}
    (hn : NodupSteps m)
    (h : ∃ q ∈ m, q.step = p.step ∧ dec p.value ≤ dec q.value) :
    insNew dec m p = m := by
  obtain ⟨q, hqm, hqs, hqd⟩ := h
  have hf : m.find? (fun r => r.step == p.step) = some q := by
    have := find?_step_unique hn hqm
    rwa [hqs] at this
  rw [insNew_eq_found hf, if_neg (not_lt_of_le hqd)]

theorem nodup_foldl_insNew {m : MSeries V} {n : MSeries V}
    (h : NodupSteps m) : NodupSteps (n.foldl (insNew dec) m) := by
  induction n generalizing m with
  | nil => exact h
  | cons p rest ih => exact ih (nodup_insNew h)

theorem foldl_insNew_dominates_mem {n : MSeries V} {m : MSeries V} {q : MPoint V}
    (hn : NodupSteps m) (hq : q ∈ m) :
    ∃ r ∈ n.foldl (insNew dec) m, r.step = q.step ∧ dec q.value ≤ dec r.value := by
  induction n generalizing m q with
  | nil => exact ⟨q, hq, rfl, le_refl _⟩
  | cons p rest ih =>
    obtain ⟨r, hr, hrs, hrd⟩ := insNew_dominates_mem (p := p) hn hq
    obtain ⟨r', hr', hrs', hrd'⟩ := ih (nodup_insNew hn) hr
    exact ⟨r', hr', by rw [hrs', hrs], le_trans hrd hrd'⟩

theorem foldl_insNew_dominates {n : MSeries V} {m : MSeries V}
    (hn : NodupSteps m) :
    ∀ p ∈ n, ∃ r ∈ n.foldl (insNew dec) m,
      r.step = p.step ∧ dec p.value ≤ dec r.value := by
  induction n generalizing m with
  | nil => intro p hp; cases hp
  | cons p0 rest ih =>
    intro p hp
    rcases List.mem_cons.mp hp with he | hm
    · subst he
      obtain ⟨r, hr, hrs, hrd⟩ := @insNew_dominates_new V dec m p
      obtain ⟨r', hr', hrs', hrd'⟩ :=
        foldl_insNew_dominates_mem (n := rest) (nodup_insNew hn) hr
      exact ⟨r', hr', by rw [hrs', hrs], le_trans hrd hrd'⟩
    · exact ih (nodup_insNew hn) p hm

theorem foldl_insNew_noop {n : MSeries V} {m : MSeries V}
    (hn : NodupSteps m)
    (h : ∀ p ∈ n, ∃ q ∈ m, q.step = p.step ∧ dec p.value ≤ dec q.value) :
    n.foldl (insNew dec) m = m := by
  induction n with
  | nil => rfl
  | cons p rest ih =>
    have h0 : insNew dec m p = m := insNew_noop hn (h p (by simp))
    simp only [List.foldl_cons, h0]
    exact ih (fun p hp => h p (List.mem_cons_of_mem _ hp))

end InsNewLemmas

section SortLemmas

variable {V : Type}

theorem sortByStep_perm (l : MSeries V) : List.Perm (sortByStep l) l :=
  List.perm_insertionSort stepRel l

theorem sortedSteps_sortByStep (l : MSeries V) : SortedSteps (sortByStep l) :=
  List.sorted_insertionSort stepRel l

theorem sortByStep_eq_self {l : MSeries V} (h : SortedSteps l) :
    sortByStep l = l :=
  List.Sorted.insertionSort_eq h

theorem nodup_sortByStep {l : MSeries V} (h : NodupSteps l) :
    NodupSteps (sortByStep l) := by
  unfold NodupSteps stepsOf at h ⊢
  exact (((sortByStep_perm l).map (·.step)).nodup_iff).mpr h

theorem mem_sortByStep {l : MSeries V} {p : MPoint V} :
    p ∈ sortByStep l ↔ p ∈ l :=
  (sortByStep_perm l).mem_iff

end SortLemmas

section MergeSeriesLemmas

variable {V : Type} {dec : V → Nat}

theorem nodup_mergeSeries (existing new : MSeries V) :
    NodupSteps (mergeSeries dec existing new) :=
  nodup_sortByStep (nodup_foldl_insNew (nodup_buildStepMap existing))

theorem sorted_mergeSeries (existing new : MSeries V) :
    SortedSteps (mergeSeries dec existing new) :=
  sortedSteps_sortByStep _

theorem mergeSeries_dominates (existing new : MSeries V) :
    ∀ p ∈ new, ∃ r ∈ mergeSeries dec existing new,
      r.step = p.step ∧ dec p.value ≤ dec r.value := by
  intro p hp
  obtain ⟨r, hr, hrs, hrd⟩ :=
    foldl_insNew_dominates (nodup_buildStepMap existing) p hp
  exact ⟨r, mem_sortByStep.mpr hr, hrs, hrd⟩

theorem mergeSeries_dominates_mem {m : MSeries V} (new : MSeries V) {q : MPoint V}
    (hn : NodupSteps m) (hq : q ∈ m) :
    ∃ r ∈ mergeSeries dec m new, r.step = q.step ∧ dec q.value ≤ dec r.value := by
  have hb : buildStepMap m = m := buildStepMap_eq_self hn
  have hn' : NodupSteps (buildStepMap m) := by rwa [hb]
  have hq' : q ∈ buildStepMap m := by rwa [hb]
  obtain ⟨r, hr, hrs, hrd⟩ := foldl_insNew_dominates_mem (n := new) hn' hq'
  exact ⟨r, mem_sortByStep.mpr hr, hrs, hrd⟩

theorem mergeSeries_noop {m new : MSeries V}
    (hn : NodupSteps m) (hs : SortedSteps m)
    (h : ∀ p ∈ new, ∃ q ∈ m, q.step = p.step ∧ dec p.value ≤ dec q.value) :
    mergeSeries dec m new = m := by
  unfold mergeSeries
  rw [buildStepMap_eq_self hn, foldl_insNew_noop hn h, sortByStep_eq_self hs]

theorem mergeSeries_idem (existing new : MSeries V) :
    mergeSeries dec (mergeSeries dec existing new) new =
      mergeSeries dec existing new := by
  apply mergeSeries_noop (nodup_mergeSeries existing new)
    (sorted_mergeSeries existing new)
  exact mergeSeries_dominates existing new

end MergeSeriesLemmas

section MetricsDictLemmas

variable {V : Type} {dec : V → Nat}

theorem lookupEntry_setEntry_self (M : MMetrics V) (name : String)
    (s : MSeries V) : lookupEntry (setEntry M name s) name = some s := by
  induction M with
  | nil => simp [setEntry, lookupEntry]
  | cons e t ih =>
    obtain ⟨k, v⟩ := e
    by_cases hk : k = name
    · simp [setEntry, lookupEntry, hk]
    · simp [setEntry, lookupEntry, hk, ih]

theorem lookupEntry_setEntry_ne {M : MMetrics V} {name name' : String}
    (s : MSeries V) (h : name' ≠ name) :
    lookupEntry (setEntry M name s) name' = lookupEntry M name' := by
  induction M with
  | nil => simp [setEntry, lookupEntry, Ne.symm h]
  | cons e t ih =>
    obtain ⟨k, v⟩ := e
    by_cases hk : k = name
    · subst hk
      simp [setEntry, lookupEntry, Ne.symm h]
    · simp [setEntry, lookupEntry, hk, ih]

theorem setEntry_lookup_self {M : MMetrics V} {name : String} {s : MSeries V}
    (h : lookupEntry M name = some s) : setEntry M name s = M := by
  induction M with
  | nil => simp [lookupEntry] at h
  | cons e t ih =>
    obtain ⟨k, v⟩ := e
    by_cases hk : k = name
    · subst hk
      have hv : v = s := by simpa [lookupEntry] using h
      simp [setEntry, hv]
    · simp only [lookupEntry, if_neg hk] at h
      simp [setEntry, hk, ih h]

theorem merge_metricsG_cons (A : MMetrics V) (b : String × MSeries V)
    (rest : List (String × MSeries V)) :
    merge_metricsG dec A (b :: rest) =
      merge_metricsG dec
        (setEntry A b.1 (mergeSeries dec ((lookupEntry A b.1).getD []) b.2))
        rest := rfl

theorem dominated_upd {M : MMetrics V} {b e : String × MSeries V}
    (h : Dominated dec M b) :
    Dominated dec
      (setEntry M e.1 (mergeSeries dec ((lookupEntry M e.1).getD []) e.2)) b := by
  obtain ⟨s, hl, hn, hs, hd⟩ := h
  by_cases hname : b.1 = e.1
  · have hle : lookupEntry M e.1 = some s := hname ▸ hl
    rw [hle]
    refine ⟨mergeSeries dec s e.2, ?_, nodup_mergeSeries s e.2,
      sorted_mergeSeries s e.2, ?_⟩
    · rw [hname]
      simpa using lookupEntry_setEntry_self M e.1 (mergeSeries dec s e.2)
    · intro p hp
      obtain ⟨q, hq, hqs, hqd⟩ := hd p hp
      obtain ⟨r, hr, hrs, hrd⟩ := @mergeSeries_dominates_mem V dec _ e.2 _ hn hq
      exact ⟨r, hr, by rw [hrs, hqs], le_trans hqd hrd⟩
  · exact ⟨s, by rw [lookupEntry_setEntry_ne _ hname]; exact hl, hn, hs, hd⟩

theorem dominated_foldl {M : MMetrics V} {b : String × MSeries V}
    (rest : List (String × MSeries V)) (h : Dominated dec M b) :
    Dominated dec (merge_metricsG dec M rest) b := by
  induction rest generalizing M with
  | nil => exact h
  | cons e t ih =>
    rw [merge_metricsG_cons]
    exact ih (dominated_upd h)

theorem dominated_new {M : MMetrics V} (b : String × MSeries V) :
    Dominated dec
      (setEntry M b.1 (mergeSeries dec ((lookupEntry M b.1).getD []) b.2)) b := by
  refine ⟨mergeSeries dec ((lookupEntry M b.1).getD []) b.2,
    lookupEntry_setEntry_self M b.1 _, nodup_mergeSeries _ _,
    sorted_mergeSeries _ _, ?_⟩
  exact mergeSeries_dominates _ b.2

theorem merge_metricsG_dominated (A : MMetrics V)
    (B : List (String × MSeries V)) :
    ∀ b ∈ B, Dominated dec (merge_metricsG dec A B) b := by
  induction B generalizing A with
  | nil => intro b hb; cases hb
  | cons e t ih =>
    intro b hb
    rw [merge_metricsG_cons]
    rcases List.mem_cons.mp hb with he | hm
    · subst he
      exact dominated_foldl t (dominated_new b)
    · exact ih _ b hm

theorem merge_metricsG_noop {M : MMetrics V}
    {B : List (String × MSeries V)}
    (h : ∀ b ∈ B, Dominated dec M b) : merge_metricsG dec M B = M := by
  induction B with
  | nil => rfl
  | cons e t ih =>
    obtain ⟨s, hl, hn, hs, hd⟩ := h e (by simp)
    rw [merge_metricsG_cons, hl]
    have hm : mergeSeries dec ((some s).getD []) e.2 = s := by
      simpa using mergeSeries_noop hn hs hd
    rw [hm, setEntry_lookup_self hl]
    exact ih (fun b hb => h b (List.mem_cons_of_mem _ hb))

theorem merge_metricsG_idem (A B : MMetrics V) :
    merge_metricsG dec (merge_metricsG dec A B) B = merge_metricsG dec A B :=
  merge_metricsG_noop (merge_metricsG_dominated A B)

end MetricsDictLemmas

/-- C1: merge is idempotent — for every pair of metrics mappings `A` and
`B` (series of `{step, value, timestamp}` points),
`merge_metrics(merge_metrics(A, B), B) = merge_metrics(A, B)`. -/
theorem claim_C1_merge_idempotent (A B : MMetrics String) :
    MetricParser.merge_metrics (MetricParser.merge_metrics A B) B =
      MetricParser.merge_metrics A B :=
  merge_metricsG_idem A B

section TieBreakLemmas

variable {V : Type} {dec : V → Nat}

theorem mergeSeries_pair (e n : MPoint V) (h : n.step = e.step) :
    mergeSeries dec [e] [n] =
      [if dec e.value < dec n.value then n else e] := by
  unfold mergeSeries
  have hb : buildStepMap [e] = [e] := rfl
  rw [hb]
  have hf : [e].find? (fun q => q.step == n.step) = some e := by
    rw [List.find?_cons_of_pos _ (by simp [h])]
  simp only [List.foldl_cons, List.foldl_nil]
  rw [insNew_eq_found hf]
  by_cases hlt : dec e.value < dec n.value
  · rw [if_pos hlt, if_pos hlt]
    have hk : setKey [e] n = [n] := by simp [setKey, h.symm]
    rw [hk]
    rfl
  · rw [if_neg hlt, if_neg hlt]
    rfl

end TieBreakLemmas

/-- C2: precision tie-break in `merge_metrics` — for a step present in both
the existing and the new series, the value with strictly more digits after
the decimal point is kept, and on equal digit counts the existing value is
kept; in particular merging `{step:5, value:1.2}` with `{step:5,
value:1.234}` yields `1.234` at step 5 in either argument order. -/
theorem claim_C2_precision_tie_break :
    (∀ (e n : MPoint String), n.step = e.step →
      mergeSeries (fun v => pyDecimals v) [e] [n] =
        [if pyDecimals e.value < pyDecimals n.value then n else e]) ∧
    MetricParser.merge_metrics [("loss", [⟨5, "1.2", "a"⟩])]
        [("loss", [⟨5, "1.234", "b"⟩])] =
      [("loss", [⟨5, "1.234", "b"⟩])] ∧
    MetricParser.merge_metrics [("loss", [⟨5, "1.234", "b"⟩])]
        [("loss", [⟨5, "1.2", "a"⟩])] =
      [("loss", [⟨5, "1.234", "b"⟩])] :=
  ⟨fun e n h => mergeSeries_pair e n h, by decide, by decide⟩

/-- Witness for C2: the general tie-break statement applied to the concrete
pair of points with steps 5 and values 1.2 / 1.234. -/
theorem claim_C2_precision_tie_break_witness :
    mergeSeries (fun v => pyDecimals v)
        [(⟨5, "1.2", "a"⟩ : MPoint String)] [⟨5, "1.234", "b"⟩] =
      [⟨5, "1.234", "b"⟩] := by
  have h := claim_C2_precision_tie_break.1 ⟨5, "1.2", "a"⟩ ⟨5, "1.234", "b"⟩ rfl
  rw [h]
  decide

section DownsampleLemmas

variable {V : Type} [Inhabited V]

theorem downsampleSeries_of_le {dp : MSeries V} {M : Nat}
    (h : dp.length ≤ M) : downsampleSeries dp M = dp := by
  simp [downsampleSeries, h]

theorem downsampleSeries_of_lt {dp : MSeries V} {M : Nat}
    (h : M < dp.length) :
    downsampleSeries dp M =
      ((List.range (M - 1)).map
          (fun i => dp.getD (i * dp.length / M) default))
        ++ [dp.getD (dp.length - 1) default] := by
  rw [downsampleSeries, if_neg (not_le.mpr h)]
  simp [List.map_append, Function.comp]

theorem downsampleSeries_length {dp : MSeries V} {M : Nat}
    (h1 : 1 ≤ M) (h : M < dp.length) :
    (downsampleSeries dp M).length = M := by
  rw [downsampleSeries_of_lt h]
  simp [Nat.sub_add_cancel h1]

theorem downsampleSeries_mem_first {dp : MSeries V} {M : Nat}
    (h2 : 2 ≤ M) (h : M < dp.length) :
    dp.getD 0 default ∈ downsampleSeries dp M := by
  rw [downsampleSeries_of_lt h]
  apply List.mem_append_left
  apply List.mem_map.mpr
  refine ⟨0, List.mem_range.mpr ?_, by simp⟩
  omega

theorem downsampleSeries_mem_last {dp : MSeries V} {M : Nat}
    (h : M < dp.length) :
    dp.getD (dp.length - 1) default ∈ downsampleSeries dp M := by
  rw [downsampleSeries_of_lt h]
  exact List.mem_append_right _ (by simp)

end DownsampleLemmas

/-- C3 (amended): series of length at most `maxPoints` pass through
`downsampleSeries` unchanged; and for `2 ≤ M < L` the result has exactly
`M` points, contains the original first and last points, and consists of
the points at indices `i * L / M` (`i < M - 1`, exact-arithmetic floor)
followed by the last point.  (The original claim, quantified over every
`M < L`, fails at `M = 1`: the result is the single last point and the
first point is lost — see the counterexample.) -/
theorem claim_C3_downsample_bounds {V : Type} [Inhabited V] :
    (∀ (dp : MSeries V) (M : Nat), dp.length ≤ M →
      downsampleSeries dp M = dp) ∧
    (∀ (dp : MSeries V) (M : Nat), 2 ≤ M → M < dp.length →
      (downsampleSeries dp M).length = M ∧
      dp.getD 0 default ∈ downsampleSeries dp M ∧
      dp.getD (dp.length - 1) default ∈ downsampleSeries dp M ∧
      downsampleSeries dp M =
        ((List.range (M - 1)).map
            (fun i => dp.getD (i * dp.length / M) default))
          ++ [dp.getD (dp.length - 1) default]) :=
  ⟨fun _ _ h => downsampleSeries_of_le h,
   fun dp M h2 h =>
    ⟨downsampleSeries_length (le_trans (by norm_num) h2) h,
     downsampleSeries_mem_first h2 h,
     downsampleSeries_mem_last h,
     downsampleSeries_of_lt h⟩⟩

/-- Witness for C3 (amended): a 5-point series downsampled to 3 points has
length 3 and keeps its first and last points, and a 2-point series fits
under a budget of 5 and is unchanged. -/
theorem claim_C3_downsample_bounds_witness :
    (downsampleSeries ([⟨0, "a", ""⟩, ⟨1, "b", ""⟩, ⟨2, "c", ""⟩,
        ⟨3, "d", ""⟩, ⟨4, "e", ""⟩] : MSeries String) 3).length = 3 ∧
    (⟨0, "a", ""⟩ : MPoint String) ∈
      downsampleSeries ([⟨0, "a", ""⟩, ⟨1, "b", ""⟩, ⟨2, "c", ""⟩,
        ⟨3, "d", ""⟩, ⟨4, "e", ""⟩] : MSeries String) 3 ∧
    downsampleSeries ([⟨0, "a", ""⟩, ⟨1, "b", ""⟩] : MSeries String) 5 =
      [⟨0, "a", ""⟩, ⟨1, "b", ""⟩] := by
  have h := (claim_C3_downsample_bounds (V := String)).2
    [⟨0, "a", ""⟩, ⟨1, "b", ""⟩, ⟨2, "c", ""⟩, ⟨3, "d", ""⟩, ⟨4, "e", ""⟩] 3
    (by norm_num) (by norm_num)
  have h0 := (claim_C3_downsample_bounds (V := String)).1
    [⟨0, "a", ""⟩, ⟨1, "b", ""⟩] 5 (by norm_num)
  exact ⟨h.1, by simpa using h.2.1, h0⟩

/-- Counterexample for C3 as stated: with `maxPoints = 1 < 2 = L` the
result is `[last point]` — it has exactly `M = 1` points but does not
include the original first point, so the claim's "includes the original
first point and the original last point" fails for `M < 2`. -/
theorem claim_C3_counterexample :
    downsampleSeries ([⟨0, "a", ""⟩, ⟨1, "b", ""⟩] : MSeries String) 1 =
      [⟨1, "b", ""⟩] ∧
    ¬ ((⟨0, "a", ""⟩ : MPoint String) ∈
        downsampleSeries ([⟨0, "a", ""⟩, ⟨1, "b", ""⟩] : MSeries String) 1) := by
  decide

/-- C8: LogStore append contract — `append_log` creates the record if
absent (data = chunk) and otherwise extends it, the previous bytes are an
unchanged initial segment of the new contents, the returned value is the
prior size plus the chunk length, and `get_log_size` of a missing log
is 0. -/
theorem claim_C8_append_contract :
    (∀ (log : Option TrainingLogRec) (chunk : List Nat) (now : String),
      (LogCaptureService.append_log log chunk now).1.data =
        (match log with | some l => l.data | none => []) ++ chunk ∧
      (LogCaptureService.append_log log chunk now).2 =
        LogCaptureService.get_log_size log + chunk.length) ∧
    LogCaptureService.get_log_size none = 0 := by
  refine ⟨fun log chunk now => ?_, rfl⟩
  cases log with
  | none => simp [LogCaptureService.append_log, LogCaptureService.get_log_size]
  | some l => simp [LogCaptureService.append_log, LogCaptureService.get_log_size]

section FlushLemmas

variable {V : Type}

theorem lookupEntry_mem {M : MMetrics V} {name : String} {s : MSeries V}
    (h : lookupEntry M name = some s) : (name, s) ∈ M := by
  induction M with
  | nil => simp [lookupEntry] at h
  | cons e t ih =>
    obtain ⟨k, v⟩ := e
    by_cases hk : k = name
    · subst hk
      have hv : v = s := by simpa [lookupEntry] using h
      simp [hv]
    · simp only [lookupEntry, if_neg hk] at h
      exact List.mem_cons_of_mem _ (ih h)

theorem mem_setEntry {M : MMetrics V} {name : String} {s : MSeries V}
    {e : String × MSeries V} (h : e ∈ setEntry M name s) :
    e = (name, s) ∨ e ∈ M := by
  induction M with
  | nil => simpa [setEntry] using h
  | cons b t ih =>
    obtain ⟨k, v⟩ := b
    by_cases hk : k = name
    · simp only [setEntry, if_pos hk] at h
      rcases List.mem_cons.mp h with he | hm
      · exact Or.inl he
      · exact Or.inr (List.mem_cons_of_mem _ hm)
    · simp only [setEntry, if_neg hk] at h
      rcases List.mem_cons.mp h with he | hm
      · exact Or.inr (he ▸ List.mem_cons_self _ _)
      · rcases ih hm with h' | h'
        · exact Or.inl h'
        · exact Or.inr (List.mem_cons_of_mem _ h')

theorem update_metrics_field_cons (ex : MMetrics V) (e : String × MSeries V)
    (rest : List (String × MSeries V)) :
    update_metrics_field ex (e :: rest) =
      update_metrics_field
        (setEntry ex e.1
          (((lookupEntry ex e.1).getD []) ++
            e.2.filter (fun p =>
              decide (p.step ∉ stepsOf ((lookupEntry ex e.1).getD [])))))
        rest := rfl

theorem lookup_update_metrics_field_not_mem {ex : MMetrics V}
    {m : List (String × MSeries V)} {name : String}
    (h : name ∉ metricKeys m) :
    lookupEntry (update_metrics_field ex m) name = lookupEntry ex name := by
  induction m generalizing ex with
  | nil => rfl
  | cons b t ih =>
    simp only [metricKeys, List.map_cons, List.mem_cons] at h
    push_neg at h
    rw [update_metrics_field_cons, ih (by simpa [metricKeys] using h.2),
      lookupEntry_setEntry_ne _ h.1]

theorem lookup_update_metrics_field_mem {m : List (String × MSeries V)}
    (hnd : (metricKeys m).Nodup) :
    ∀ ex : MMetrics V, ∀ e ∈ m,
      lookupEntry (update_metrics_field ex m) e.1 =
        some (((lookupEntry ex e.1).getD []) ++
          e.2.filter (fun p =>
            decide (p.step ∉ stepsOf ((lookupEntry ex e.1).getD [])))) := by
  induction m with
  | nil => intro ex e he; cases he
  | cons b t ih =>
    intro ex e he
    simp only [metricKeys, List.map_cons, List.nodup_cons] at hnd
    rcases List.mem_cons.mp he with hb | hm
    · subst hb
      rw [update_metrics_field_cons,
        lookup_update_metrics_field_not_mem (by simpa [metricKeys] using hnd.1),
        lookupEntry_setEntry_self]
    · have hne : b.1 ≠ e.1 := by
        intro hcontra
        exact hnd.1 (hcontra ▸ List.mem_map_of_mem Prod.fst hm)
      rw [update_metrics_field_cons]
      have := ih (by simpa [metricKeys] using hnd.2)
        (setEntry ex b.1
          (((lookupEntry ex b.1).getD []) ++
            b.2.filter (fun p =>
              decide (p.step ∉ stepsOf ((lookupEntry ex b.1).getD []))))) e hm
      rwa [lookupEntry_setEntry_ne _ (Ne.symm hne)] at this

theorem nodup_filter_append {cur pts : MSeries V}
    (hc : NodupSteps cur) (hp : NodupSteps pts) :
    NodupSteps (cur ++
      pts.filter (fun p => decide (p.step ∉ stepsOf cur))) := by
  unfold NodupSteps stepsOf at hc hp ⊢
  rw [List.map_append]
  refine List.Nodup.append hc ?_ ?_
  · exact hp.sublist ((List.filter_sublist pts).map (·.step))
  · intro a ha hb
    rcases List.mem_map.mp hb with ⟨p, hpmem, hps⟩
    have := List.of_mem_filter hpmem
    simp only [decide_eq_true_eq] at this
    exact this (by rw [hps]; exact (by simpa [stepsOf] using ha))

theorem update_metrics_field_nodup {ex : MMetrics V}
    {m : List (String × MSeries V)}
    (hex : ∀ e ∈ ex, NodupSteps e.2) (hm : ∀ e ∈ m, NodupSteps e.2) :
    ∀ e ∈ update_metrics_field ex m, NodupSteps e.2 := by
  induction m generalizing ex with
  | nil => exact hex
  | cons b t ih =>
    rw [update_metrics_field_cons]
    refine ih ?_ (fun e he => hm e (List.mem_cons_of_mem _ he))
    intro e he
    rcases mem_setEntry he with heq | hmem
    · subst heq
      have hcur : NodupSteps ((lookupEntry ex b.1).getD []) := by
        cases hl : lookupEntry ex b.1 with
        | none => simp [NodupSteps, stepsOf]
        | some s =>
          simpa using hex (b.1, s) (lookupEntry_mem hl)
      exact nodup_filter_append hcur (hm b (by simp))
    · exact hex e hmem

end FlushLemmas

/-- C10: persisted-flush frame property — `_update_run_metrics` only
appends, to each series named in the flushed metrics, the points whose
step was not already persisted for that name (so an already-persisted
point keeps its step, value and timestamp, and a higher-precision value
for a persisted step is never applied at persistence time); series not
named in the flush and all Run fields other than `metrics` are
unchanged. -/
theorem claim_C10_flush_frame (r : ExperimentRun) (m : MMetrics Rat)
    (hnd : (metricKeys m).Nodup) :
    ∃ r', LogCaptureService.update_run_metrics (some r) m = some r' ∧
      r'.status = r.status ∧ r'.final_loss = r.final_loss ∧
      r'.error = r.error ∧ r'.started_at = r.started_at ∧
      r'.completed_at = r.completed_at ∧
      (∀ e ∈ m,
        lookupEntry ((r'.metrics).getD []) e.1 =
          some (((lookupEntry ((r.metrics).getD []) e.1).getD []) ++
            e.2.filter (fun p =>
              decide (p.step ∉
                stepsOf ((lookupEntry ((r.metrics).getD []) e.1).getD []))))) ∧
      (∀ name, name ∉ metricKeys m →
        lookupEntry ((r'.metrics).getD []) name =
          lookupEntry ((r.metrics).getD []) name) := by
  refine ⟨_, rfl, rfl, rfl, rfl, rfl, rfl, ?_, ?_⟩
  · intro e he
    exact lookup_update_metrics_field_mem hnd ((r.metrics).getD []) e he
  · intro name hname
    exact lookup_update_metrics_field_not_mem hname

/-- Witness for C10: with one persisted loss point at step 1 and a flush
carrying a different value at step 1 plus a new point at step 2, the
persisted step-1 point is untouched and only the step-2 point is
appended. -/
theorem claim_C10_flush_frame_witness :
    ∃ r', LogCaptureService.update_run_metrics
        (some ⟨RunStatus.running, some [("loss", [⟨1, mkRat 1 1, "t"⟩])],
          none, none, none, none⟩)
        [("loss", [⟨1, mkRat 5 1, "u"⟩, ⟨2, mkRat 2 1, "u"⟩])] = some r' ∧
      r'.status = RunStatus.running ∧
      lookupEntry ((r'.metrics).getD []) "loss" =
        some [⟨1, mkRat 1 1, "t"⟩, ⟨2, mkRat 2 1, "u"⟩] := by
  obtain ⟨r', h1, hst, _, _, _, _, hmem, _⟩ :=
    claim_C10_flush_frame
      ⟨RunStatus.running, some [("loss", [⟨1, mkRat 1 1, "t"⟩])],
        none, none, none, none⟩
      [("loss", [⟨1, mkRat 5 1, "u"⟩, ⟨2, mkRat 2 1, "u"⟩])]
      (by decide)
  refine ⟨r', h1, by rw [hst], ?_⟩
  have h2 := hmem ("loss", [⟨1, mkRat 5 1, "u"⟩, ⟨2, mkRat 2 1, "u"⟩])
    (by simp)
  exact h2.trans (by decide)

/-- C4 (amended): after `merge_metrics`, every series under a name that
occurs in the new metrics has unique steps and is sorted ascending by
step; and a flush by `_update_run_metrics` preserves step-uniqueness
(given unique-step inputs).  (The original claim also asserted that the
persisted series is sorted ascending after every flush; that fails
because `_update_run_metrics` appends fresh steps at the tail without
re-sorting — see the counterexample.) -/
theorem claim_C4_series_invariant :
    (∀ (A B : MMetrics String), ∀ e ∈ B,
      ∃ s, lookupEntry (MetricParser.merge_metrics A B) e.1 = some s ∧
        NodupSteps s ∧ SortedSteps s) ∧
    (∀ (r : ExperimentRun) (m : MMetrics Rat) (r' : ExperimentRun),
      (∀ e ∈ (r.metrics).getD [], NodupSteps e.2) →
      (∀ e ∈ m, NodupSteps e.2) →
      LogCaptureService.update_run_metrics (some r) m = some r' →
      ∀ e ∈ (r'.metrics).getD [], NodupSteps e.2) := by
  constructor
  · intro A B e he
    obtain ⟨s, hl, hn, hs, _⟩ :=
      @merge_metricsG_dominated String (fun v => pyDecimals v) A B e he
    exact ⟨s, hl, hn, hs⟩
  · intro r m r' hex hm hupd e he
    have hr' : r'.metrics =
        some (update_metrics_field ((r.metrics).getD []) m) := by
      have := Option.some_inj.mp hupd
      rw [← this]
    rw [hr'] at he
    exact update_metrics_field_nodup hex hm e (by simpa using he)

/-- Witness for C4 (amended): merging a fresh loss series yields a sorted,
duplicate-free series, and a concrete flush preserves step uniqueness. -/
theorem claim_C4_series_invariant_witness :
    (∃ s, lookupEntry
        (MetricParser.merge_metrics []
          [("loss", [⟨5, "1.2", "a"⟩, ⟨2, "3.0", "b"⟩])]) "loss" = some s ∧
      NodupSteps s ∧ SortedSteps s) ∧
    (∀ e ∈ (LogCaptureService.update_run_metrics
        (some ⟨RunStatus.running, some [("loss", [⟨100, mkRat 1 1, "t"⟩])],
          none, none, none, none⟩)
        [("loss", [⟨2, mkRat 2 1, "u"⟩])]).elim [] (fun r => (r.metrics).getD []),
      NodupSteps e.2) := by
  constructor
  · exact claim_C4_series_invariant.1 []
      [("loss", [⟨5, "1.2", "a"⟩, ⟨2, "3.0", "b"⟩])]
      ("loss", [⟨5, "1.2", "a"⟩, ⟨2, "3.0", "b"⟩]) (by simp)
  · intro e he
    refine claim_C4_series_invariant.2
      ⟨RunStatus.running, some [("loss", [⟨100, mkRat 1 1, "t"⟩])],
        none, none, none, none⟩
      [("loss", [⟨2, mkRat 2 1, "u"⟩])] _ (by decide) (by decide) rfl e ?_
    simpa using he

/-- Counterexample for C4 as stated: a flush of a (sorted, unique-step)
accumulator `{loss: [step 2, step 100]}` into a run whose persisted series
is `[step 100]` appends the step-2 point at the tail, so the persisted
series after the flush is `[step 100, step 2]` — not sorted ascending by
step, contradicting the claim's assertion for `_update_run_metrics`
flushes. -/
theorem claim_C4_counterexample :
    ∃ r', LogCaptureService.update_run_metrics
        (some ⟨RunStatus.running, some [("loss", [⟨100, mkRat 1 1, "t"⟩])],
          none, none, none, none⟩)
        [("loss", [⟨2, mkRat 2 1, "u"⟩, ⟨100, mkRat 1 1, "t"⟩])] = some r' ∧
      lookupEntry ((r'.metrics).getD []) "loss" =
        some [⟨100, mkRat 1 1, "t"⟩, ⟨2, mkRat 2 1, "u"⟩] ∧
      ¬ SortedSteps [(⟨100, mkRat 1 1, "t"⟩ : MPoint Rat),
          ⟨2, mkRat 2 1, "u"⟩] := by
  exact ⟨_, rfl, by decide, by decide⟩

namespace LogStreamer

theorem pollIter_run_none {st : StreamState} {o : StreamObs}
    (h : o.run = none) : pollIter st o = ([], none) := by
  unfold pollIter
  rw [h]

theorem pollIter_terminal {st : StreamState} {o : StreamObs}
    {status : RunStatus} (ho : o.run = some status)
    (hterm : isTerminal status = true) :
    pollIter st o =
      ((if st.lastSize < obsSize o then
          [SSEEvent.log (pySlice ((o.log).getD []) st.lastSize (obsSize o))]
        else []) ++
        [SSEEvent.done (if status = RunStatus.completed then 0 else 1)
          (obsSize o)],
       none) := by
  unfold pollIter
  rw [ho]
  cases hl : o.log with
  | none => simp [hterm, obsSize, hl]
  | some l =>
    by_cases hc : st.lastSize < l.length
    · simp [hterm, obsSize, hl, hc]
    · simp [hterm, obsSize, hl, hc]

theorem pollIter_no_done_of_continue {st : StreamState} {o : StreamObs}
    {evs : List SSEEvent} {st' : StreamState}
    (h : pollIter st o = (evs, some st')) : doneCount evs = 0 := by
  unfold pollIter at h
  cases ho : o.run with
  | none => rw [ho] at h; cases h
  | some status =>
    rw [ho] at h
    by_cases hterm : isTerminal status = true
    · simp only [hterm, if_true] at h
      cases h
    · simp only [Bool.not_eq_true] at hterm
      simp only [hterm, Bool.false_eq_true, if_false] at h
      obtain ⟨he, _⟩ := Prod.mk.injEq .. ▸ h
      subst he
      by_cases hc : st.lastSize < (match o.log with
          | some l => l.length | none => 0)
      · by_cases hb : 15 ≤ o.now - st.lastHeartbeat <;>
          simp [doneCount, hc, hb, List.countP_append, List.countP_cons]
      · by_cases hb : 15 ≤ o.now - st.lastHeartbeat <;>
          simp [doneCount, hc, hb, List.countP_append, List.countP_cons]

theorem pollIter_done_count (st : StreamState) (o : StreamObs) :
    doneCount (pollIter st o).1 ≤ 1 := by
  cases ho : o.run with
  | none => rw [pollIter_run_none ho]; simp [doneCount]
  | some status =>
    by_cases hterm : isTerminal status = true
    · rw [pollIter_terminal ho hterm]
      by_cases hc : st.lastSize < obsSize o <;>
        simp [doneCount, hc, List.countP_append, List.countP_cons]
    · cases hp : pollIter st o with
      | mk evs ost =>
        cases ost with
        | none =>
          exfalso
          unfold pollIter at hp
          rw [ho] at hp
          simp only [Bool.not_eq_true] at hterm
          simp only [hterm, Bool.false_eq_true, if_false] at hp
          cases hp
        | some st' =>
          have := pollIter_no_done_of_continue hp
          simp [this]

theorem stream_events_done_count (st : StreamState) (polls : List StreamObs) :
    doneCount (stream_events st polls) ≤ 1 := by
  induction polls generalizing st with
  | nil => simp [stream_events, doneCount]
  | cons o rest ih =>
    unfold stream_events
    cases hp : pollIter st o with
    | mk evs ost =>
      cases ost with
      | none =>
        have := pollIter_done_count st o
        rwa [hp] at this
      | some st' =>
        have h0 := pollIter_no_done_of_continue hp
        have hih := ih st'
        simp only [doneCount, List.countP_append] at h0 hih ⊢
        omega

end LogStreamer

/-- C7: LogStreamer termination semantics — an iteration that finds no Run
emits nothing and stops (and the whole stream is empty from that poll on);
an iteration that finds a terminal status (COMPLETED/FAILED/CANCELLED)
emits the pending log delta beyond `last_size` (if any) followed by
exactly one `done` event whose `exit_code` is 0 for COMPLETED and 1
otherwise and whose `final_size` is the current log size, and stops; and
over any sequence of polls the stream emits at most one `done` event. -/
theorem claim_C7_streamer_termination :
    (∀ (st : LogStreamer.StreamState) (o : LogStreamer.StreamObs)
      (rest : List LogStreamer.StreamObs), o.run = none →
      LogStreamer.pollIter st o = ([], none) ∧
      LogStreamer.stream_events st (o :: rest) = []) ∧
    (∀ (st : LogStreamer.StreamState) (o : LogStreamer.StreamObs)
      (status : RunStatus), o.run = some status →
      LogStreamer.isTerminal status = true →
      LogStreamer.pollIter st o =
        ((if st.lastSize < LogStreamer.obsSize o then
            [LogStreamer.SSEEvent.log
              (pySlice ((o.log).getD []) st.lastSize (LogStreamer.obsSize o))]
          else []) ++
          [LogStreamer.SSEEvent.done
            (if status = RunStatus.completed then 0 else 1)
            (LogStreamer.obsSize o)],
         none)) ∧
    (∀ (st : LogStreamer.StreamState) (polls : List LogStreamer.StreamObs),
      LogStreamer.doneCount (LogStreamer.stream_events st polls) ≤ 1) := by
  refine ⟨fun st o rest h => ⟨LogStreamer.pollIter_run_none h, ?_⟩,
    fun st o status ho hterm => LogStreamer.pollIter_terminal ho hterm,
    LogStreamer.stream_events_done_count⟩
  unfold LogStreamer.stream_events
  rw [LogStreamer.pollIter_run_none h]

/-- Witness for C7: a completed run with 2 unsent log bytes yields one
`log` event with those bytes then one `done {exit_code: 0, final_size: 2}`
and stops; a vanished run yields no events and stops. -/
theorem claim_C7_streamer_termination_witness :
    LogStreamer.pollIter ⟨0, 0⟩ ⟨some RunStatus.completed, some [7, 8], 0⟩ =
      ([LogStreamer.SSEEvent.log [7, 8], LogStreamer.SSEEvent.done 0 2],
        none) ∧
    LogStreamer.stream_events ⟨0, 0⟩ [⟨none, some [7, 8], 0⟩] = [] := by
  constructor
  · have h := claim_C7_streamer_termination.2.1 ⟨0, 0⟩
      ⟨some RunStatus.completed, some [7, 8], 0⟩ RunStatus.completed rfl rfl
    exact h.trans (by decide)
  · exact (claim_C7_streamer_termination.1 ⟨0, 0⟩
      ⟨none, some [7, 8], 0⟩ [] rfl).2

theorem downsampleSeries_length_le {V : Type} [Inhabited V]
    (dp : MSeries V) {M : Nat} (h1 : 1 ≤ M) :
    (downsampleSeries dp M).length ≤ M := by
  by_cases h : dp.length ≤ M
  · rw [downsampleSeries_of_le h]
    exact h
  · rw [downsampleSeries_length h1 (not_le.mp h)]

/-- C6 (amended): after both drain loops finish — and before the process
is awaited — a final flush occurs if and only if the accumulated metrics
are non-empty, persisting the accumulator downsampled to 2000 points per
series (every flushed series indeed has at most 2000 points), and
`capture_subprocess_output` returns the subprocess's real exit code.
(The original claim's "mandatory" flush after the await fails: with an
empty accumulator no flush happens at all, and the flush that does happen
precedes `process.wait()` — see the counterexample.) -/
theorem claim_C6_final_flush (chunks : List String) (ts : String) (ec : Int) :
    (LogCaptureService.capture_subprocess_output chunks ts ec).2 = ec ∧
    LogCaptureService.capture_subprocess_output chunks ts ec =
      ((LogCaptureService.captureLoop chunks ts).1 ++
        (if (LogCaptureService.captureLoop chunks ts).2.acc.isEmpty then []
         else [LogCaptureService.CapEvent.flushMetrics
            (MetricParser.downsample_metrics
              (LogCaptureService.captureLoop chunks ts).2.acc 2000)]) ++
        [LogCaptureService.CapEvent.procWait], ec) ∧
    (∀ e ∈ (MetricParser.downsample_metrics
        (LogCaptureService.captureLoop chunks ts).2.acc 2000 : MMetrics Rat),
      e.2.length ≤ 2000) := by
  refine ⟨rfl, rfl, ?_⟩
  intro e he
  rcases List.mem_map.mp he with ⟨b, _, hbe⟩
  rw [← hbe]
  exact downsampleSeries_length_le b.2 (by norm_num)

/-- Counterexample for C6 as stated: with no output chunks the drain loops
finish with an empty accumulator and `capture_subprocess_output` performs
no metrics flush at all (its event trace is just the process await), so
the claimed mandatory final flush does not occur; the real exit code is
still returned. -/
theorem claim_C6_counterexample :
    LogCaptureService.capture_subprocess_output [] "T" 0 =
      ([LogCaptureService.CapEvent.procWait], 0) ∧
    (LogCaptureService.capture_subprocess_output [] "T" 0).1.countP
        (fun e => match e with
          | LogCaptureService.CapEvent.flushMetrics _ => true
          | _ => false) = 0 := by
  decide

/-- C5: parser literal cases — from a fresh parser,
`parse_log_line("Step 100: loss=1.2345")` yields the loss point
`{step: 100, value: 1.2345}` and sets the carried step to 100; a
subsequent `parse_log_line("lr=1.00e-04")` from that carried step (100),
with no explicit step on the line, yields the learning-rate point
`{step: 100, value: 0.0001}`; and
`parse_log_line("Epoch 2 average loss: 9.0916")` yields the loss point
`{step: 2, value: 9.0916}` and the epoch point `{step: 2, value: 2.0}`. -/
theorem claim_C5_parser_literal_cases (ts : String) :
    MetricParser.parse_log_line 0 "Step 100: loss=1.2345" ts =
      Except.ok (100, [("loss", [⟨100, mkRat 12345 10000, ts⟩])]) ∧
    MetricParser.parse_log_line 100 "lr=1.00e-04" ts =
      Except.ok (100, [("learning_rate", [⟨100, mkRat 1 10000, ts⟩])]) ∧
    MetricParser.parse_log_line 0 "Epoch 2 average loss: 9.0916" ts =
      Except.ok (2, [("loss", [⟨2, mkRat 90916 10000, ts⟩]),
                     ("epoch", [⟨2, mkRat 2 1, ts⟩])]) :=
  ⟨rfl, rfl, rfl⟩

section NumShapeLemmas

theorem takeWhile_append_all {p : Char → Bool} {l1 : List Char}
    (h : ∀ c ∈ l1, p c = true) (l2 : List Char) :
    (l1 ++ l2).takeWhile p = l1 ++ l2.takeWhile p := by
  induction l1 with
  | nil => simp
  | cons a t ih =>
    have ha := h a (by simp)
    simp [List.takeWhile_cons, ha, ih (fun c hc => h c (by simp [hc]))]

theorem dropWhile_append_all {p : Char → Bool} {l1 : List Char}
    (h : ∀ c ∈ l1, p c = true) (l2 : List Char) :
    (l1 ++ l2).dropWhile p = l2.dropWhile p := by
  induction l1 with
  | nil => simp
  | cons a t ih =>
    have ha := h a (by simp)
    simp [List.dropWhile_cons, ha, ih (fun c hc => h c (by simp [hc]))]

theorem takeWhile_eq_self_of_all {p : Char → Bool} {l : List Char}
    (h : ∀ c ∈ l, p c = true) : l.takeWhile p = l := by
  simpa using takeWhile_append_all h []

theorem dropWhile_eq_nil_of_all {p : Char → Bool} {l : List Char}
    (h : ∀ c ∈ l, p c = true) : l.dropWhile p = [] := by
  simpa using dropWhile_append_all h []

theorem takeWhile_bound {p : Char → Bool} {l : List Char}
    (h : ∀ c t, l = c :: t → p c = false) :
    l.takeWhile p = [] ∧ l.dropWhile p = l := by
  cases l with
  | nil => simp
  | cons c t => simp [List.takeWhile_cons, List.dropWhile_cons, h c t rfl]

theorem ne_of_digit {d c : Char} (hd : isDigitCh d = true)
    (hc : isDigitCh c = false) : d ≠ c := by
  intro he
  rw [he, hc] at hd
  cases hd

theorem beq_false_of_digit {d c : Char} (hd : isDigitCh d = true)
    (hc : isDigitCh c = false) : (d == c) = false :=
  beq_eq_false_iff_ne.mpr (ne_of_digit hd hc)

end NumShapeLemmas

/-- The exponent-suffix continuation accepts the empty suffix and any
`[eE] sign? digits+` suffix. -/
theorem pyFloatExp_shape (mant : Int) (fsLen : Nat) {expp : List Char}
    (hexp : expp = [] ∨ ∃ e sl es, (e = 'e' ∨ e = 'E') ∧
        (sl = [] ∨ sl = ['+'] ∨ sl = ['-']) ∧ es ≠ [] ∧
        (∀ c ∈ es, isDigitCh c = true) ∧ expp = e :: (sl ++ es)) :
    (pyFloatExp mant fsLen expp).isSome = true := by
  rcases hexp with rfl | ⟨e, sl, es, he, hsl, hes0, hes, rfl⟩
  · simp [pyFloatExp]
  · have heq : (e == 'e' || e == 'E') = true := by
      rcases he with rfl | rfl <;> decide
    cases es with
    | nil => exact absurd rfl hes0
    | cons e1 es' =>
      have he1 : isDigitCh e1 = true := hes e1 (by simp)
      have hself : (e1 :: es').takeWhile isDigitCh = e1 :: es' :=
        takeWhile_eq_self_of_all hes
      have hnil : (e1 :: es').dropWhile isDigitCh = [] :=
        dropWhile_eq_nil_of_all hes
      rcases hsl with rfl | rfl | rfl
      · simp only [List.nil_append, pyFloatExp, heq, if_true]
        rw [beq_false_of_digit he1 (by decide),
          beq_false_of_digit he1 (by decide)]
        simp [hself, hnil]
      · simp only [List.cons_append, List.nil_append, pyFloatExp, heq, if_true]
        simp [hself, hnil]
      · simp only [List.cons_append, List.nil_append, pyFloatExp, heq, if_true]
        simp [hself, hnil]

/-- Every text of the shape captured by the numeric regex groups —
`sign? digits+ (. digits*)? ([eE] sign? digits+)?` — is accepted by the
`float` model. -/
theorem pyFloat_shape (sgn ds dot fs expp : List Char)
    (hsgn : sgn = [] ∨ sgn = ['-'])
    (hds0 : ds ≠ []) (hds : ∀ c ∈ ds, isDigitCh c = true)
    (hdot : dot = [] ∨ dot = ['.'])
    (hfs : ∀ c ∈ fs, isDigitCh c = true)
    (hfs0 : dot = [] → fs = [])
    (hexp : expp = [] ∨ ∃ e sl es, (e = 'e' ∨ e = 'E') ∧
        (sl = [] ∨ sl = ['+'] ∨ sl = ['-']) ∧ es ≠ [] ∧
        (∀ c ∈ es, isDigitCh c = true) ∧ expp = e :: (sl ++ es)) :
    (pyFloat? (sgn ++ ds ++ dot ++ fs ++ expp)).isSome = true := by
  cases ds with
  | nil => exact absurd rfl hds0
  | cons d ds' =>
  have hd : isDigitCh d = true := hds d (by simp)
  have hexpb : expp.takeWhile isDigitCh = [] ∧
      expp.dropWhile isDigitCh = expp := by
    apply takeWhile_bound
    intro c t hct
    rcases hexp with rfl | ⟨e, sl, es, he, _, _, _, rfl⟩
    · cases hct
    · have : e = c := (List.cons.inj hct).1
      rcases he with rfl | rfl <;> rw [← this] <;> decide
  have hbound : (dot ++ (fs ++ expp)).takeWhile isDigitCh = [] ∧
      (dot ++ (fs ++ expp)).dropWhile isDigitCh = dot ++ (fs ++ expp) := by
    apply takeWhile_bound
    intro c t hct
    rcases hdot with rfl | rfl
    · rw [hfs0 rfl] at hct
      simp only [List.nil_append] at hct
      rcases hexp with rfl | ⟨e, sl, es, he, _, _, _, rfl⟩
      · cases hct
      · have : e = c := (List.cons.inj hct).1
        rcases he with rfl | rfl <;> rw [← this] <;> decide
    · have : '.' = c := by
        simpa using (List.cons.inj (by simpa using hct)).1
      rw [← this]
      decide
  have htw : List.takeWhile isDigitCh (d :: (ds' ++ (dot ++ (fs ++ expp))))
      = d :: ds' := by
    have := takeWhile_append_all hds (dot ++ (fs ++ expp))
    rw [hbound.1, List.append_nil] at this
    simpa using this
  have hdw : List.dropWhile isDigitCh (d :: (ds' ++ (dot ++ (fs ++ expp))))
      = dot ++ (fs ++ expp) := by
    have := dropWhile_append_all hds (dot ++ (fs ++ expp))
    rw [hbound.2] at this
    simpa using this
  have main : ∀ sg : Int,
      (if (List.takeWhile isDigitCh
            (d :: (ds' ++ (dot ++ (fs ++ expp))))).isEmpty = true then none
       else
        pyFloatExp
          (sg * (digitsToNat
            (List.takeWhile isDigitCh (d :: (ds' ++ (dot ++ (fs ++ expp)))) ++
              (match List.dropWhile isDigitCh
                  (d :: (ds' ++ (dot ++ (fs ++ expp)))) with
                | [] => ([], [])
                | c :: t =>
                  if c == '.' then
                    (t.takeWhile isDigitCh, t.dropWhile isDigitCh)
                  else ([], c :: t)).1) : Int))
          (match List.dropWhile isDigitCh
              (d :: (ds' ++ (dot ++ (fs ++ expp)))) with
            | [] => ([], [])
            | c :: t =>
              if c == '.' then
                (t.takeWhile isDigitCh, t.dropWhile isDigitCh)
              else ([], c :: t)).1.length
          (match List.dropWhile isDigitCh
              (d :: (ds' ++ (dot ++ (fs ++ expp)))) with
            | [] => ([], [])
            | c :: t =>
              if c == '.' then
                (t.takeWhile isDigitCh, t.dropWhile isDigitCh)
              else ([], c :: t)).2).isSome = true := by
    intro sg
    rw [htw, hdw]
    simp only [List.isEmpty_cons, Bool.false_eq_true, if_false]
    rcases hdot with rfl | rfl
    · rw [hfs0 rfl]
      simp only [List.nil_append]
      rcases hexp with hexpnil | ⟨e, sl, es, he, hsl, hes0, hes, hexpeq⟩
      · subst hexpnil
        simp [pyFloatExp]
      · subst hexpeq
        have hee : (e == '.') = false := by
          rcases he with rfl | rfl <;> decide
        simp only [hee, Bool.false_eq_true, if_false]
        exact pyFloatExp_shape _ _
          (Or.inr ⟨e, sl, es, he, hsl, hes0, hes, rfl⟩)
    · have hfsb : (fs ++ expp).takeWhile isDigitCh = fs := by
        rw [takeWhile_append_all hfs, hexpb.1, List.append_nil]
      have hfsb2 : (fs ++ expp).dropWhile isDigitCh = expp := by
        rw [dropWhile_append_all hfs, hexpb.2]
      simp only [List.cons_append, List.nil_append]
      rw [show (('.' == '.') = true) from rfl]
      simp only [if_true, hfsb, hfsb2]
      exact pyFloatExp_shape _ _ hexp
  rcases hsgn with rfl | rfl
  · simp only [List.nil_append, List.cons_append, List.append_assoc, pyFloat?]
    rw [beq_false_of_digit hd (by decide), beq_false_of_digit hd (by decide)]
    simp only [Bool.false_eq_true, if_false]
    exact main 1
  · simp only [List.cons_append, List.nil_append, List.append_assoc, pyFloat?]
    rw [show (('-' == '-') = true) from rfl]
    simp only [if_true]
    exact main (-1)

theorem dropWhile_head_false {p : Char → Bool} :
    ∀ {l : List Char} {c : Char} {t : List Char},
      l.dropWhile p = c :: t → p c = false := by
  intro l
  induction l with
  | nil => intro c t h; cases h
  | cons a l' ih =>
    intro c t h
    rw [List.dropWhile_cons] at h
    by_cases ha : p a = true
    · rw [if_pos ha] at h
      exact ih h
    · rw [if_neg ha] at h
      have := (List.cons.inj h).1
      rw [← this]
      exact Bool.not_eq_true _ ▸ (by simpa using ha)

/-- `pyFloat?` accepts every `NumShape` text, and its `'-'`-prefixed
variant. -/
theorem pyFloat_numShape {s : List Char} (h : NumShape s) :
    (pyFloat? s).isSome = true ∧ (pyFloat? ('-' :: s)).isSome = true := by
  obtain ⟨ds, dot, fs, expp, rfl, hds0, hds, hdot, hfs, hfs0, hexp⟩ := h
  constructor
  · simpa using pyFloat_shape [] ds dot fs expp (Or.inl rfl) hds0 hds hdot
      hfs hfs0 hexp
  · simpa using pyFloat_shape ['-'] ds dot fs expp (Or.inr rfl) hds0 hds hdot
      hfs hfs0 hexp

/-- Shape of the capture produced by the exponent tail of `matchNum`,
for any `r3` (whose shape only matters when the exponent branch fires). -/
theorem matchNum_tail_shape {ds dot fs r3 : List Char}
    {pr : List Char × List Char}
    (hds0 : ds ≠ []) (hds : ∀ c ∈ ds, isDigitCh c = true)
    (hdot : dot = [] ∨ dot = ['.'])
    (hfs : ∀ c ∈ fs, isDigitCh c = true)
    (hfs0 : dot = [] → fs = [])
    (h : (match r3 with
      | e :: t =>
        if (e == 'e' || e == 'E') = true then
          if (List.takeWhile isDigitCh
                (match t with
                  | s :: t2 =>
                    if (s == '+' || s == '-') = true then ([s], t2)
                    else ([], s :: t2)
                  | [] => ([], [])).2).isEmpty = true then
            some (ds ++ dot ++ fs, r3)
          else
            some (ds ++ dot ++ fs ++
                e :: (match t with
                  | s :: t2 =>
                    if (s == '+' || s == '-') = true then ([s], t2)
                    else ([], s :: t2)
                  | [] => ([], [])).1 ++
                List.takeWhile isDigitCh (match t with
                  | s :: t2 =>
                    if (s == '+' || s == '-') = true then ([s], t2)
                    else ([], s :: t2)
                  | [] => ([], [])).2,
              List.dropWhile isDigitCh (match t with
                | s :: t2 =>
                  if (s == '+' || s == '-') = true then ([s], t2)
                  else ([], s :: t2)
                | [] => ([], [])).2)
        else some (ds ++ dot ++ fs, r3)
      | [] => some (ds ++ dot ++ fs, [])) = some pr) :
    NumShape pr.1 := by
  have base : NumShape (ds ++ dot ++ fs) :=
    ⟨ds, dot, fs, [], by simp, hds0, hds, hdot, hfs, hfs0, Or.inl rfl⟩
  cases r3 with
  | nil =>
    obtain rfl : (ds ++ dot ++ fs, ([] : List Char)) = pr :=
      Option.some_inj.mp h
    exact base
  | cons e t =>
    by_cases hee : (e == 'e' || e == 'E') = true
    · have he : e = 'e' ∨ e = 'E' := by
        rcases Bool.or_eq_true _ _ ▸ hee with h1 | h1
        · exact Or.inl (eq_of_beq h1)
        · exact Or.inr (eq_of_beq h1)
      simp only [hee, if_true] at h
      cases t with
      | nil =>
        simp only [List.takeWhile_nil, List.isEmpty_nil, if_true] at h
        obtain rfl : (ds ++ dot ++ fs, e :: ([] : List Char)) = pr :=
          Option.some_inj.mp h
        exact base
      | cons s t2 =>
        by_cases hs : (s == '+' || s == '-') = true
        · have hsv : s = '+' ∨ s = '-' := by
            rcases Bool.or_eq_true _ _ ▸ hs with h1 | h1
            · exact Or.inl (eq_of_beq h1)
            · exact Or.inr (eq_of_beq h1)
          simp only [hs, if_true] at h
          by_cases hEs : (List.takeWhile isDigitCh t2).isEmpty = true
          · simp only [hEs, if_true] at h
            obtain rfl : (ds ++ dot ++ fs, e :: s :: t2) = pr :=
              Option.some_inj.mp h
            exact base
          · simp only [hEs, Bool.false_eq_true, if_false] at h
            obtain rfl : (ds ++ dot ++ fs ++
                e :: [s] ++ List.takeWhile isDigitCh t2,
                List.dropWhile isDigitCh t2) = pr :=
              Option.some_inj.mp h
            refine ⟨ds, dot, fs,
              e :: ([s] ++ List.takeWhile isDigitCh t2), ?_, hds0, hds, hdot,
              hfs, hfs0, Or.inr ⟨e, [s], List.takeWhile isDigitCh t2, he,
                ?_, ?_, fun c hc => List.mem_takeWhile_imp hc, rfl⟩⟩
            · simp
            · rcases hsv with rfl | rfl
              · exact Or.inr (Or.inl rfl)
              · exact Or.inr (Or.inr rfl)
            · intro hnil
              rw [hnil] at hEs
              exact hEs rfl
        · simp only [hs, Bool.false_eq_true, if_false] at h
          by_cases hEs : (List.takeWhile isDigitCh (s :: t2)).isEmpty = true
          · simp only [hEs, if_true] at h
            obtain rfl : (ds ++ dot ++ fs, e :: s :: t2) = pr :=
              Option.some_inj.mp h
            exact base
          · simp only [hEs, Bool.false_eq_true, if_false] at h
            obtain rfl : (ds ++ dot ++ fs ++
                e :: [] ++ List.takeWhile isDigitCh (s :: t2),
                List.dropWhile isDigitCh (s :: t2)) = pr :=
              Option.some_inj.mp h
            refine ⟨ds, dot, fs,
              e :: ([] ++ List.takeWhile isDigitCh (s :: t2)), ?_, hds0, hds,
              hdot, hfs, hfs0,
              Or.inr ⟨e, [], List.takeWhile isDigitCh (s :: t2), he,
                Or.inl rfl, ?_,
                fun c hc => List.mem_takeWhile_imp hc, rfl⟩⟩
            · simp
            · intro hnil
              rw [hnil] at hEs
              exact hEs rfl
    · simp only [hee, Bool.false_eq_true, if_false] at h
      obtain rfl : (ds ++ dot ++ fs, e :: t) = pr := Option.some_inj.mp h
      exact base

/-- Every text captured by the numeric group matcher has the `NumShape`
form. -/
theorem matchNum_shape {cs : List Char} {pr : List Char × List Char}
    (h : matchNum cs = some pr) : NumShape pr.1 := by
  have hds_dig : ∀ c ∈ cs.takeWhile isDigitCh, isDigitCh c = true :=
    fun c hc => List.mem_takeWhile_imp hc
  simp only [matchNum] at h
  cases hE : cs.takeWhile isDigitCh with
  | nil =>
    rw [hE] at h
    simp at h
  | cons d0 ds' =>
    rw [hE] at h hds_dig
    simp only [List.isEmpty_cons, Bool.false_eq_true, if_false] at h
    cases hR1 : cs.dropWhile isDigitCh with
    | nil =>
      rw [hR1] at h
      simp only [List.takeWhile_nil, List.dropWhile_nil] at h
      obtain rfl : (d0 :: ds' ++ [] ++ [], ([] : List Char)) = pr :=
        Option.some_inj.mp h
      exact ⟨d0 :: ds', [], [], [], by simp, by simp, hds_dig, Or.inl rfl,
        by simp, fun _ => rfl, Or.inl rfl⟩
    | cons c1 t1 =>
      have hc1 : isDigitCh c1 = false := dropWhile_head_false hR1
      rw [hR1] at h
      by_cases hdotb : (c1 == '.') = true
      · simp only [hdotb, if_true] at h
        exact @matchNum_tail_shape (d0 :: ds') ['.']
          (List.takeWhile isDigitCh t1) (List.dropWhile isDigitCh t1) pr
          (by simp) hds_dig (Or.inr rfl)
          (fun c hc => List.mem_takeWhile_imp hc) (by simp) h
      · simp only [hdotb, Bool.false_eq_true, if_false] at h
        have htk : List.takeWhile isDigitCh (c1 :: t1) = [] := by
          rw [List.takeWhile_cons, hc1]
          simp
        have hdr : List.dropWhile isDigitCh (c1 :: t1) = c1 :: t1 := by
          rw [List.dropWhile_cons, hc1]
          simp
        rw [htk, hdr] at h
        exact @matchNum_tail_shape (d0 :: ds') [] [] (c1 :: t1) pr
          (by simp) hds_dig (Or.inl rfl) (by simp) (fun _ => rfl) h

/-- Texts captured by the signed numeric group are accepted by `float`. -/
theorem matchNumNeg_float {cs : List Char} {pr : List Char × List Char}
    (h : matchNumNeg cs = some pr) : (pyFloat? pr.1).isSome = true := by
  cases cs with
  | nil =>
    simp only [matchNumNeg] at h
    exact (pyFloat_numShape (matchNum_shape h)).1
  | cons c t =>
    simp only [matchNumNeg] at h
    by_cases hc : (c == '-') = true
    · rw [if_pos hc] at h
      obtain ⟨pr0, h0, heq⟩ := Option.map_eq_some'.mp h
      rw [← heq]
      exact (pyFloat_numShape (matchNum_shape h0)).2
    · rw [if_neg hc] at h
      exact (pyFloat_numShape (matchNum_shape h)).1

/-- Texts captured by the unsigned numeric group are accepted by
`float`. -/
theorem matchNum_float {cs : List Char} {pr : List Char × List Char}
    (h : matchNum cs = some pr) : (pyFloat? pr.1).isSome = true :=
  (pyFloat_numShape (matchNum_shape h)).1

section SearchLemmas

variable {α : Type}

theorem searchPos_some {t : List Char → Option α} {cs : List Char} {a : α}
    (h : searchPos t cs = some a) : ∃ suf, t suf = some a := by
  induction cs with
  | nil => exact ⟨[], h⟩
  | cons c rest ih =>
    simp only [searchPos] at h
    cases ht : t (c :: rest) with
    | some b =>
      rw [ht] at h
      simp only [Option.orElse] at h
      exact ⟨c :: rest, ht.trans h⟩
    | none =>
      rw [ht] at h
      simp only [Option.orElse] at h
      exact ih h

theorem searchGapLazy_some {t : List Char → Option α} {cs : List Char}
    {a : α} (h : searchGapLazy t cs = some a) : ∃ suf, t suf = some a := by
  induction cs with
  | nil => exact ⟨[], h⟩
  | cons c rest ih =>
    simp only [searchGapLazy] at h
    cases ht : t (c :: rest) with
    | some b =>
      rw [ht] at h
      simp only [Option.orElse] at h
      exact ⟨c :: rest, ht.trans h⟩
    | none =>
      rw [ht] at h
      simp only [Option.orElse] at h
      by_cases hc : (c == '\n') = true
      · rw [if_pos hc] at h
        cases h
      · rw [if_neg hc] at h
        exact ih h

theorem searchGapGreedy_some {t : List Char → Option α} {cs : List Char}
    {a : α} (h : searchGapGreedy t cs = some a) : ∃ suf, t suf = some a := by
  induction cs with
  | nil => exact ⟨[], h⟩
  | cons c rest ih =>
    simp only [searchGapGreedy] at h
    by_cases hc : (c == '\n') = true
    · rw [if_pos hc] at h
      exact ⟨c :: rest, h⟩
    · rw [if_neg hc] at h
      cases ht : searchGapGreedy t rest with
      | some b =>
        rw [ht] at h
        simp only [Option.orElse] at h
        exact ih (ht.trans h)
      | none =>
        rw [ht] at h
        simp only [Option.orElse] at h
        exact ⟨c :: rest, h⟩

end SearchLemmas

theorem lossTail_float {cs s : List Char} (h : lossTail cs = some s) :
    (pyFloat? s).isSome = true := by
  simp only [lossTail, Option.bind_eq_some, Option.map_eq_some'] at h
  obtain ⟨r1, _, r2, _, pr, h3, rfl⟩ := h
  exact matchNum_float h3

theorem searchStepLoss_float {cs : List Char} {pr : List Char × List Char}
    (h : searchPos tryStepLoss cs = some pr) :
    (pyFloat? pr.2).isSome = true := by
  obtain ⟨suf, hs⟩ := searchPos_some h
  simp only [tryStepLoss, Option.bind_eq_some, Option.map_eq_some'] at hs
  obtain ⟨r1, _, r2, _, dsr, _, num, h4, rfl⟩ := hs
  obtain ⟨suf2, h5⟩ := searchGapLazy_some h4
  exact lossTail_float h5

theorem searchEpochAvg_float {cs : List Char} {pr : List Char × List Char}
    (h : searchPos tryEpochAvg cs = some pr) :
    (pyFloat? pr.2).isSome = true := by
  obtain ⟨suf, hs⟩ := searchPos_some h
  simp only [tryEpochAvg, Option.bind_eq_some, Option.map_eq_some'] at hs
  obtain ⟨r1, _, r2, _, dsr, _, r3, _, r4, _, r5, _, r6, _, r7, _, pr2, h9,
    rfl⟩ := hs
  exact matchNum_float h9

theorem searchEpochProgress_float {cs : List Char}
    {pr : List Char × List Char}
    (h : searchPos tryEpochProgress cs = some pr) :
    (pyFloat? pr.2).isSome = true := by
  obtain ⟨suf, hs⟩ := searchPos_some h
  simp only [tryEpochProgress, Option.bind_eq_some, Option.map_eq_some'] at hs
  obtain ⟨r1, _, r2, _, dsr, _, num, h4, rfl⟩ := hs
  obtain ⟨suf2, h5⟩ := searchGapGreedy_some h4
  cases suf2 with
  | nil => cases h5
  | cons c t =>
    dsimp only at h5
    by_cases hc : (c == '|') = true
    · rw [if_pos hc] at h5
      obtain ⟨suf3, h6⟩ := searchGapGreedy_some h5
      exact lossTail_float h6
    · rw [if_neg hc] at h5
      cases h5

theorem searchLearningRate_float {cs : List Char} {s : List Char}
    (h : searchPos tryLearningRate cs = some s) :
    (pyFloat? s).isSome = true := by
  obtain ⟨suf, hs⟩ := searchPos_some h
  simp only [tryLearningRate, Option.bind_eq_some, Option.map_eq_some'] at hs
  obtain ⟨r1, _, r2, _, pr, h3, rfl⟩ := hs
  exact matchNum_float h3

theorem searchGradNorm_float {cs : List Char} {s : List Char}
    (h : searchPos tryGradNorm cs = some s) :
    (pyFloat? s).isSome = true := by
  obtain ⟨suf, hs⟩ := searchPos_some h
  simp only [tryGradNorm, Option.bind_eq_some, Option.map_eq_some'] at hs
  obtain ⟨r1, _, r2, _, pr, h3, rfl⟩ := hs
  exact matchNum_float h3

theorem searchRewardsChosen_float {cs : List Char} {s : List Char}
    (h : searchPos tryRewardsChosen cs = some s) :
    (pyFloat? s).isSome = true := by
  obtain ⟨suf, hs⟩ := searchPos_some h
  simp only [tryRewardsChosen, Option.bind_eq_some, Option.map_eq_some'] at hs
  obtain ⟨r1, _, r2, _, r3, _, r4, _, pr, h5, rfl⟩ := hs
  exact matchNumNeg_float h5

theorem searchRewardsRejected_float {cs : List Char} {s : List Char}
    (h : searchPos tryRewardsRejected cs = some s) :
    (pyFloat? s).isSome = true := by
  obtain ⟨suf, hs⟩ := searchPos_some h
  simp only [tryRewardsRejected, Option.bind_eq_some, Option.map_eq_some'] at hs
  obtain ⟨r1, _, r2, _, r3, _, r4, _, pr, h5, rfl⟩ := hs
  exact matchNumNeg_float h5

theorem searchHfLoss_float {cs : List Char} {s : List Char}
    (h : searchPos tryHfLoss cs = some s) :
    (pyFloat? s).isSome = true := by
  obtain ⟨suf, hs⟩ := searchPos_some h
  simp only [tryHfLoss, Option.bind_eq_some, Option.map_eq_some'] at hs
  obtain ⟨r1, _, r2, _, r3, _, r4, _, pr, h5, rfl⟩ := hs
  exact matchNum_float h5

theorem floatCap_ok {cap : Option (List Char)}
    (hwf : ∀ s, cap = some s → (pyFloat? s).isSome = true) :
    ∃ v, MetricParser.floatCap cap = Except.ok v := by
  cases cap with
  | none => exact ⟨none, rfl⟩
  | some s =>
    have hs := hwf s rfl
    cases hv : pyFloat? s with
    | some v =>
      exact ⟨some v, by simp [MetricParser.floatCap, pyFloatE, hv, Except.map]⟩
    | none =>
      rw [hv] at hs
      cases hs

theorem floatCapPair_ok {cap : Option (List Char × List Char)}
    (hwf : ∀ pr, cap = some pr → (pyFloat? pr.2).isSome = true) :
    ∃ v, MetricParser.floatCapPair cap = Except.ok v := by
  cases cap with
  | none => exact ⟨none, rfl⟩
  | some pr =>
    have hs := hwf pr rfl
    cases hv : pyFloat? pr.2 with
    | some v =>
      exact ⟨some (digitsToNat pr.1, v),
        by simp [MetricParser.floatCapPair, pyFloatE, hv, Except.map]⟩
    | none =>
      rw [hv] at hs
      cases hs

theorem bindE_ok {α β : Type} {e : Except Unit α} {f : α → Except Unit β}
    (he : ∃ v, e = Except.ok v) (hf : ∀ v, ∃ w, f v = Except.ok w) :
    ∃ w, (e >>= f) = Except.ok w := by
  obtain ⟨v, rfl⟩ := he
  exact hf v

theorem parse_log_line_ok (st : Nat) (line ts : String) :
    ∃ out, MetricParser.parse_log_line st line ts = Except.ok out := by
  unfold MetricParser.parse_log_line
  dsimp only
  refine bindE_ok (floatCapPair_ok (fun pr hpr => searchStepLoss_float hpr))
    fun sl => ?_
  cases sl
  all_goals
    dsimp only
    refine bindE_ok (by first
      | exact ⟨none, rfl⟩
      | exact floatCapPair_ok (fun pr hpr => searchEpochAvg_float hpr))
      fun ea => ?_
  all_goals cases ea
  all_goals
    dsimp only
    refine bindE_ok (by first
      | exact ⟨none, rfl⟩
      | exact floatCapPair_ok (fun pr hpr => searchEpochProgress_float hpr))
      fun ep => ?_
  all_goals cases ep
  all_goals
    dsimp only
    refine bindE_ok (by first
      | exact ⟨none, rfl⟩
      | exact floatCap_ok (fun s hs => searchHfLoss_float hs))
      fun hf => ?_
  all_goals
    dsimp only
    refine bindE_ok (floatCap_ok (fun s hs => searchLearningRate_float hs))
      fun lr => ?_
    dsimp only
    refine bindE_ok (floatCap_ok (fun s hs => searchGradNorm_float hs))
      fun gn => ?_
    dsimp only
    refine bindE_ok (floatCap_ok (fun s hs => searchRewardsChosen_float hs))
      fun rc => ?_
    dsimp only
    refine bindE_ok (floatCap_ok (fun s hs => searchRewardsRejected_float hs))
      fun rj => ?_
    exact ⟨_, rfl⟩

theorem parse_chunk_foldl_ok (ts : String) :
    ∀ (lines : List (List Char)) (acc : Nat × MMetrics Rat),
      ∃ r, lines.foldlM
        (fun (acc : Nat × MMetrics Rat) (rawLine : List Char) =>
          let line := pyStrip rawLine
          if line.isEmpty then pure acc
          else do
            let r ← MetricParser.parse_log_line acc.1 (String.mk line) ts
            pure (r.1, MetricParser.merge_metricsQ acc.2 r.2))
        acc = Except.ok r := by
  intro lines
  induction lines with
  | nil => intro acc; exact ⟨acc, rfl⟩
  | cons l ls ih =>
    intro acc
    rw [List.foldlM_cons]
    refine bindE_ok ?_ fun b => ih b
    dsimp only
    by_cases he : (pyStrip l).isEmpty = true
    · rw [if_pos he]
      exact ⟨acc, rfl⟩
    · rw [if_neg he]
      exact bindE_ok (parse_log_line_ok acc.1 (String.mk (pyStrip l)) ts)
        (fun r => ⟨_, rfl⟩)

/-- C9: `parse_log_chunk` never raises — for every carried step, input
chunk (the byte-level decode with `errors="replace"` is total, so the
model receives the decoded text) and timestamp, it returns a parsed
metrics mapping with `Except.ok`.  The underlying reason is proved in the
capture lemmas: every numeric text captured by the metric regex groups is
well-formed for `float` (`NumShape`), so no `float()` call inside
`parse_log_line` can fail, and a malformed matched numeric text — the
only per-line failure the spec contemplates — cannot occur on any
line. -/
theorem claim_C9_parse_chunk_never_raises (current_step : Nat)
    (chunk timestamp : String) :
    ∃ r, MetricParser.parse_log_chunk current_step chunk timestamp =
      Except.ok r := by
  unfold MetricParser.parse_log_chunk
  exact parse_chunk_foldl_ok timestamp (splitNl chunk.data)
    (current_step, [])

/-- Witness for C6 (amended): one chunk containing a step-loss line yields
an accumulator with one loss point; the exit code 7 is returned and the
downsampled final-flush payload contains that series, within the
2000-point budget. -/
theorem claim_C6_final_flush_witness :
    (LogCaptureService.capture_subprocess_output
      ["Step 1: loss=2.0"] "T" 7).2 = 7 ∧
    ("loss", [(⟨1, mkRat 2 1, "T"⟩ : MPoint Rat)]) ∈
      (MetricParser.downsample_metrics
        (LogCaptureService.captureLoop ["Step 1: loss=2.0"] "T").2.acc
        2000 : MMetrics Rat) ∧
    [(⟨1, mkRat 2 1, "T"⟩ : MPoint Rat)].length ≤ 2000 := by
  refine ⟨(claim_C6_final_flush ["Step 1: loss=2.0"] "T" 7).1, by decide, ?_⟩
  exact (claim_C6_final_flush ["Step 1: loss=2.0"] "T" 7).2.2
    ("loss", [⟨1, mkRat 2 1, "T"⟩]) (by decide)
